import Mathlib

/-!
gotp: key normalisation, key text codec, dynamic truncation, provisioning URI

A shallow embedding of `src/otp.go` and of the truncation steps of
`src/personal_test.go` (`TestSmt`).

Conventions of the embedding

* A Go `byte` is a `Nat` below 256; a `[]byte` and a Go `string` (a byte
  sequence) are both `List Nat`.  Theorems that need the entries to be bytes
  say so with `IsBytes`.
* Go's `uint8` / `uint32` arithmetic is `Nat` arithmetic with an explicit
  `% 256` / `% 2 ^ 32` wherever a result can overflow.
* A Go function returning `(value, error)` is an `Except`; a run-time panic
  (index out of range) is `none`.
* The Go standard library functions called by the source (`crypto/sha1`,
  `encoding/base32`, `net/url`, `fmt`) are embedded from the Go
  implementation, next to the repository function that calls them.
-/

namespace Gotp

/-- A Go byte slice or string: a sequence of bytes. -/
abbrev Bytes := List Nat

/-- Every entry of the sequence is a byte. -/
def IsBytes (s : Bytes) : Prop := ∀ b ∈ s, b < 256

instance (s : Bytes) : Decidable (IsBytes s) := by
  unfold IsBytes; infer_instance

/-- The bytes of an ASCII string literal. -/
def ascii (s : String) : Bytes := s.toList.map Char.toNat

/-! ## crypto/sha1 -/

namespace Sha1

/-- The constant `sha1.BlockSize`. -/
def BlockSize : Nat := 64

/-- The constant `sha1.Size`. -/
def Size : Nat := 20

/-- The function `bits.RotateLeft32`. -/
def RotateLeft32 (x k : Nat) : Nat :=
  ((x <<< k) % 2 ^ 32) ||| (x >>> (32 - k))

/-- The complement `^b` of a `uint32`. -/
def not32 (b : Nat) : Nat := 2 ^ 32 - 1 - b

def K0 : Nat := 0x5A827999
def K1 : Nat := 0x6ED9EBA1
def K2 : Nat := 0x8F1BBCDC
def K3 : Nat := 0xCA62C1D6

/-- The initial chaining value `init0 .. init4`. -/
def init : List Nat := [0x67452301, 0xEFCDAB89, 0x98BADCFE, 0x10325476, 0xC3D2E1F0]

/-- A big-endian `uint32` read from `p[j .. j+3]`. -/
def beUint32 (p : Bytes) (j : Nat) : Nat :=
  (p.getD j 0 <<< 24) ||| (p.getD (j + 1) 0 <<< 16) ||| (p.getD (j + 2) 0 <<< 8) ||| p.getD (j + 3) 0

/-- The 16 message words of one 64-byte chunk. -/
def loadWords (p : Bytes) : List Nat := (List.range 16).map (fun i => beUint32 p (i * 4))

/-- The round function `f` and constant of round `i`. -/
def roundF (i b c d : Nat) : Nat :=
  if i < 20 then ((b &&& c) ||| (not32 b &&& d)) + K0
  else if i < 40 then (b ^^^ c ^^^ d) + K1
  else if i < 60 then (((b ||| c) &&& d) ||| (b &&& c)) + K2
  else (b ^^^ c ^^^ d) + K3

/-- Rounds `i, i+1, ..` of `blockGeneric` on one chunk: `w` is the 16-word
circular schedule, `st = (a, b, c, d, e)`; `n` rounds remain. -/
def rounds : Nat → Nat → List Nat → Nat × Nat × Nat × Nat × Nat → Nat × Nat × Nat × Nat × Nat
  | 0, _, _, st => st
  | n + 1, i, w, (a, b, c, d, e) =>
    let w :=
      if i < 16 then w
      else
        let tmp := w.getD ((i - 3) &&& 0xf) 0 ^^^ w.getD ((i - 8) &&& 0xf) 0 ^^^
          w.getD ((i - 14) &&& 0xf) 0 ^^^ w.getD (i &&& 0xf) 0
        w.set (i &&& 0xf) (RotateLeft32 tmp 1)
    let t := (RotateLeft32 a 5 + roundF i b c d + e + w.getD (i &&& 0xf) 0) % 2 ^ 32
    rounds n (i + 1) w (t, a, RotateLeft32 b 30, c, d)

/-- One iteration of the chunk loop of `blockGeneric`. -/
def block (h : List Nat) (p : Bytes) : List Nat :=
  let h0 := h.getD 0 0
  let h1 := h.getD 1 0
  let h2 := h.getD 2 0
  let h3 := h.getD 3 0
  let h4 := h.getD 4 0
  match rounds 80 0 (loadWords p) (h0, h1, h2, h3, h4) with
  | (a, b, c, d, e) =>
    [(h0 + a) % 2 ^ 32, (h1 + b) % 2 ^ 32, (h2 + c) % 2 ^ 32, (h3 + d) % 2 ^ 32,
      (h4 + e) % 2 ^ 32]

/-- The chunk loop of `blockGeneric`: `n` chunks of 64 bytes. -/
def blocks : Nat → List Nat → Bytes → List Nat
  | 0, h, _ => h
  | n + 1, h, p => blocks n (block h p) (p.drop 64)

/-- The big-endian bytes of a `uint64` (`binary.BigEndian.PutUint64`). -/
def putUint64 (v : Nat) : Bytes :=
  [(v >>> 56) % 256, (v >>> 48) % 256, (v >>> 40) % 256, (v >>> 32) % 256,
    (v >>> 24) % 256, (v >>> 16) % 256, (v >>> 8) % 256, v % 256]

/-- The big-endian bytes of a `uint32` (`binary.BigEndian.PutUint32`). -/
def putUint32 (v : Nat) : Bytes :=
  [(v >>> 24) % 256, (v >>> 16) % 256, (v >>> 8) % 256, v % 256]

/-- The message followed by the padding that `checkSum` writes: `0x80`, zero
bytes up to 56 modulo 64, and the bit length as a big-endian `uint64`. -/
def padded (data : Bytes) : Bytes :=
  let len := data.length
  let t := len % 64
  let zeros := if t < 56 then 56 - t - 1 else 64 + 56 - t - 1
  data ++ [0x80] ++ List.replicate zeros 0 ++ putUint64 ((len <<< 3) % 2 ^ 64)

/-- The function `sha1.Sum`: the 20-byte SHA-1 digest of `data`. -/
def Sum (data : Bytes) : Bytes :=
  let p := padded data
  (blocks (p.length / 64) init p).flatMap putUint32

end Sha1

/-! ## adjustForSha1 -/

/-- The function `adjustForSha1` of `otp.go`. -/
def adjustForSha1 (key : Bytes) : Bytes :=
  let key := if key.length > Sha1.BlockSize then Sha1.Sum key else key
  let key :=
    if key.length < Sha1.BlockSize then key ++ List.replicate (Sha1.BlockSize - key.length) 0
    else key
  key

/-! ## encoding/base32 (`base32.HexEncoding`) -/

namespace Base32

/-- The padding character `StdPadding`, `'='`. -/
def padChar : Nat := 61

/-- The "Extended Hex" alphabet `0123456789ABCDEFGHIJKLMNOPQRSTUV` of
`base32.HexEncoding`, as bytes. -/
def encodeHex : Bytes :=
  [48, 49, 50, 51, 52, 53, 54, 55, 56, 57, 65, 66, 67, 68, 69, 70, 71, 72, 73, 74, 75, 76, 77,
    78, 79, 80, 81, 82, 83, 84, 85, 86]

/-- The table lookup `enc.encode[i]`. -/
def encodeChar (i : Nat) : Nat := encodeHex.getD i 0

/-- The table `enc.decodeMap`: `0xFF` everywhere except at the characters of
the alphabet, which map to their index. -/
def decodeMap (c : Nat) : Nat :=
  let i := encodeHex.indexOf c
  if i < 32 then i else 0xFF

/-- The `switch len(src)` of `Encode` with its fall-through cases: the eight
5-bit blocks `b[0..7]` of the quantum at the head of `src`. -/
def unpack (src : Bytes) : List Nat :=
  let n := src.length
  let s := fun i => src.getD i 0
  -- default:
  let b7 := if 5 ≤ n then s 4 &&& 0x1F else 0
  let b6 := if 5 ≤ n then s 4 >>> 5 else 0
  -- case 4:
  let b6 := if 4 ≤ n then b6 ||| (((s 3 <<< 3) % 256) &&& 0x1F) else b6
  let b5 := if 4 ≤ n then (s 3 >>> 2) &&& 0x1F else 0
  let b4 := if 4 ≤ n then s 3 >>> 7 else 0
  -- case 3:
  let b4 := if 3 ≤ n then b4 ||| (((s 2 <<< 1) % 256) &&& 0x1F) else b4
  let b3 := if 3 ≤ n then (s 2 >>> 4) &&& 0x1F else 0
  -- case 2:
  let b3 := if 2 ≤ n then b3 ||| (((s 1 <<< 4) % 256) &&& 0x1F) else b3
  let b2 := if 2 ≤ n then (s 1 >>> 1) &&& 0x1F else 0
  let b1 := if 2 ≤ n then (s 1 >>> 6) &&& 0x1F else 0
  -- case 1:
  let b1 := if 1 ≤ n then b1 ||| (((s 0 <<< 2) % 256) &&& 0x1F) else b1
  let b0 := if 1 ≤ n then s 0 >>> 3 else 0
  [b0, b1, b2, b3, b4, b5, b6, b7]

/-- The number of characters of the final quantum that `Encode` leaves
unpadded, for `len(src) < 5` remaining bytes. -/
def keptChars (n : Nat) : Nat :=
  if n < 2 then 2 else if n < 3 then 4 else if n < 4 then 5 else if n < 5 then 7 else 8

/-- One iteration of the loop of `Encode`: the 8 output characters of the
quantum at the head of `src`, the final one padded with `'='`. -/
def encodeQuantum (src : Bytes) : Bytes :=
  let chars := (unpack src).map (fun b => encodeChar (b &&& 31))
  if src.length < 5 then
    chars.take (keptChars src.length) ++ List.replicate (8 - keptChars src.length) padChar
  else chars

/-- The function `EncodeToString` of `base32.HexEncoding`. -/
def EncodeToString : Bytes → Bytes
  | [] => []
  | s0 :: s1 :: s2 :: s3 :: s4 :: rest =>
    encodeQuantum (s0 :: s1 :: s2 :: s3 :: s4 :: rest) ++ EncodeToString rest
  | src => encodeQuantum src

/-- The function `stripNewlines`: the input without `'\r'` and `'\n'`. -/
def stripNewlines (src : Bytes) : Bytes :=
  src.filter (fun b => !(b == 13 || b == 10))

/-- The outcome of the inner loop of `decode` on one quantum: the blocks
`dbuf`, the count `dlen`, the flag `end` and the input left. -/
structure Quantum where
  dbuf : List Nat
  dlen : Nat
  fin : Bool
  rest : Bytes
deriving DecidableEq, Repr

/-- The inner loop `for j := 0; j < 8;` of `decode`, from index `j` on, with
`k` slots of `dbuf` still to fill.  `HexEncoding` pads (`padChar` is not
`NoPadding`), so input that ends inside a quantum is an error.  An error is
a `CorruptInputError` offset. -/
def readQuantum (olen : Nat) : Nat → Nat → List Nat → Bytes → Except Int Quantum
  | 0, _, dbuf, src => .ok ⟨dbuf, 8, false, src⟩
  | _ + 1, j, _, [] =>
    -- reached the end and are missing padding
    .error ((olen : Int) - 0 - j)
  | k + 1, j, dbuf, c :: src =>
    if c = padChar ∧ 2 ≤ j ∧ src.length < 8 then
      -- reached the end and there is padding
      if src.length + j < 8 - 1 then .error olen
      else
        match (List.range (8 - 1 - j)).find?
            (fun i => decide (i < src.length) && src.getD i 0 != padChar) with
        | some i => .error ((olen : Int) - src.length + i - 1)
        | none =>
          if j = 1 ∨ j = 3 ∨ j = 6 then .error ((olen : Int) - src.length - 1)
          else .ok ⟨dbuf, j, true, src⟩
    else
      if decodeMap c = 0xFF then .error ((olen : Int) - src.length - 1)
      else readQuantum olen k (j + 1) (dbuf ++ [decodeMap c]) src

/-- The `switch dlen` of `decode` with its fall-through cases: the bytes of
one quantum, in output order. -/
def pack (dbuf : List Nat) (dlen : Nat) : Bytes :=
  let d := fun i => dbuf.getD i 0
  let o4 := if dlen = 8 then [((d 6 <<< 5) ||| d 7) % 256] else []
  let o3 :=
    if dlen = 8 ∨ dlen = 7 then [((d 4 <<< 7) ||| (d 5 <<< 2) ||| (d 6 >>> 3)) % 256] else []
  let o2 := if dlen = 8 ∨ dlen = 7 ∨ dlen = 5 then [((d 3 <<< 4) ||| (d 4 >>> 1)) % 256] else []
  let o1 :=
    if dlen = 8 ∨ dlen = 7 ∨ dlen = 5 ∨ dlen = 4 then
      [((d 1 <<< 6) ||| (d 2 <<< 1) ||| (d 3 >>> 4)) % 256]
    else []
  let o0 :=
    if dlen = 8 ∨ dlen = 7 ∨ dlen = 5 ∨ dlen = 4 ∨ dlen = 2 then
      [((d 0 <<< 3) ||| (d 1 >>> 2)) % 256]
    else []
  o0 ++ o1 ++ o2 ++ o3 ++ o4

/-- The outer loop `for len(src) > 0 && !end` of `decode`.  Every iteration
consumes input, so `fuel` at least `len(src)` is never exhausted. -/
def decodeLoop (olen : Nat) : Nat → Bytes → Except Int Bytes
  | 0, _ => .ok []
  | fuel + 1, src =>
    if src.length > 0 then
      match readQuantum olen 8 0 [] src with
      | .error e => .error e
      | .ok q =>
        if q.fin then .ok (pack q.dbuf q.dlen)
        else
          match decodeLoop olen fuel q.rest with
          | .error e => .error e
          | .ok out => .ok (pack q.dbuf q.dlen ++ out)
    else .ok []

/-- The function `DecodeString` of `base32.HexEncoding`.  Go decodes in place
(`enc.decode(buf, buf[:l])`): quantum `q` writes `buf[5q .. 5q+4]` after it
has read `buf[8q .. 8q+7]`, so no write reaches input still to be read and
the output is the concatenation of the packed quantums.  The bytes that Go
returns next to a non-nil error are not kept. -/
def DecodeString (s : Bytes) : Except Int Bytes :=
  let buf := stripNewlines s
  decodeLoop buf.length buf.length buf

end Base32

/-! ## encodeKey, decodeKey -/

/-- The function `strings.Index(s, "=")`, `-1` being `none`. -/
def indexEq (s : Bytes) : Option Nat :=
  if s.indexOf 61 < s.length then some (s.indexOf 61) else none

/-- The function `encodeKey` of `otp.go`. -/
def encodeKey (key : Bytes) : Bytes :=
  let encoded := Base32.EncodeToString key
  match indexEq encoded with
  | some eqIdx => encoded.take eqIdx
  | none => encoded

/-- The function `decodeKey` of `otp.go`. -/
def decodeKey (key : Bytes) : Except Int Bytes :=
  let missingPadding := key.length % 8
  let key := if missingPadding ≠ 0 then key ++ List.replicate (8 - missingPadding) 61 else key
  Base32.DecodeString key

/-! ## Dynamic truncation (`TestSmt`, steps 2 to 4) -/

/-- Step 2 of `TestSmt`: `offset := int(genHash[len(genHash)-1] & 0x0f)`.
Indexing an empty digest panics. -/
def truncOffset (genHash : Bytes) : Option Nat := do
  let lastByte ← genHash[genHash.length - 1]?
  let lastBit := lastByte &&& 0x0f
  pure lastBit

/-- Step 3 of `TestSmt`: the value `maskedOTPBinary`.  An index out of range
panics.  All intermediate values are non-negative and below `2 ^ 31`, so
Go's `int` is `Nat` here. -/
def maskedOTPBinary (genHash : Bytes) : Option Nat := do
  let offset ← truncOffset genHash
  let g0 ← genHash[offset]?
  let g1 ← genHash[offset + 1]?
  let g2 ← genHash[offset + 2]?
  let g3 ← genHash[offset + 3]?
  pure (((g0 &&& 0x7f) <<< 24) ||| ((g1 &&& 0xff) <<< 16) ||| ((g2 &&& 0xff) <<< 8) |||
    (g3 &&& 0xff))

/-- The conversion `int(math.Pow10(n))`, exact for `0 <= n <= 18`. -/
def pow10 (n : Nat) : Nat := 10 ^ n

/-- Step 4 of `TestSmt`: `otpValue := maskedOTPBinary % int(math.Pow10(passwordLen))`. -/
def otpValue (genHash : Bytes) (passwordLen : Nat) : Option Nat :=
  (maskedOTPBinary genHash).map (fun m => m % pow10 passwordLen)

/-- The digit loop of `fmt`'s `fmtInteger` in base 10, writing right to left
in front of `acc`.  The loop divides `u` by 10 each round, so `fuel` at least
`u` is never exhausted. -/
def fmtDigits : Nat → Nat → Bytes → Bytes
  | 0, u, acc => (48 + u) :: acc
  | fuel + 1, u, acc =>
    if u ≥ 10 then fmtDigits fuel (u / 10) ((48 + u - (u / 10) * 10) :: acc)
    else (48 + u) :: acc

/-- The verb `%0*d` of `fmt` applied to the width `wid` and a non-negative
integer: its decimal digits, left-padded with `'0'` to at least `wid`
characters. -/
def fmtZeroPad (wid u : Nat) : Bytes :=
  let ds := fmtDigits u u []
  List.replicate (wid - ds.length) 48 ++ ds

/-- The digest of the worked example in the comment of `TestSmt`. -/
def exampleDigest : Bytes :=
  [0x1f, 0x86, 0x98, 0x69, 0x0e, 0x02, 0xca, 0x16, 0x61, 0x85, 0x50, 0xef, 0x7f, 0x19, 0xda,
    0x8e, 0x94, 0x5b, 0x55, 0x5a]

/-! ## net/url -/

namespace Url

/-- The escaping modes of `net/url` that the source reaches. -/
inductive Encoding where
  | encodePath
  | encodePathSegment
  | encodeHost
  | encodeQueryComponent
deriving DecidableEq, Repr

/-- The function `shouldEscape`: whether byte `c` is percent-encoded in `mode`. -/
def shouldEscape (c : Nat) (mode : Encoding) : Bool :=
  -- §2.3 Unreserved characters (alphanum)
  if (97 ≤ c ∧ c ≤ 122) ∨ (65 ≤ c ∧ c ≤ 90) ∨ (48 ≤ c ∧ c ≤ 57) then false
  else if mode = .encodeHost ∧ c ∈ ascii "!$&'()*+,;=:[]<>\"" then false
  else if c ∈ ascii "-_.~" then false
  else if c ∈ ascii "$&+,/:;=?@" ∧ mode = .encodePath then c = 63
  else if c ∈ ascii "$&+,/:;=?@" ∧ mode = .encodePathSegment then
    c = 47 ∨ c = 59 ∨ c = 44 ∨ c = 63
  else if c ∈ ascii "$&+,/:;=?@" ∧ mode = .encodeQueryComponent then true
  else true

/-- The table `upperhex`. -/
def upperhex : Bytes := ascii "0123456789ABCDEF"

/-- The function `escape`: the text with every byte that `shouldEscape`
selects replaced by `%XX`, a space being `+` in a query component. -/
def escape (s : Bytes) (mode : Encoding) : Bytes :=
  s.flatMap (fun c =>
    if c = 32 ∧ mode = .encodeQueryComponent then [43]
    else if shouldEscape c mode then [37, upperhex.getD (c >>> 4) 0, upperhex.getD (c &&& 15) 0]
    else [c])

/-- The function `url.PathEscape`. -/
def PathEscape (s : Bytes) : Bytes := escape s .encodePathSegment

/-- The function `url.QueryEscape`. -/
def QueryEscape (s : Bytes) : Bytes := escape s .encodeQueryComponent

/-- The type `url.Values`, a `map[string][]string`: the keys in some order,
each with its values.  A map holds every key once. -/
abbrev Values := List (Bytes × List Bytes)

/-- The method `Values.Add`: `v[key] = append(v[key], value)`. -/
def Values.Add (v : Values) (key value : Bytes) : Values :=
  if v.any (fun e => e.1 = key) then
    v.map (fun e => if e.1 = key then (e.1, e.2 ++ [value]) else e)
  else v ++ [(key, [value])]

/-- The order `<` of Go strings: bytewise lexicographic. -/
def strLt : Bytes → Bytes → Bool
  | [], [] => false
  | [], _ :: _ => true
  | _ :: _, [] => false
  | a :: as, b :: bs => if a < b then true else if b < a then false else strLt as bs

/-- Insertion of a key into a sorted list of keys. -/
def insertKey (k : Bytes) : List Bytes → List Bytes
  | [] => [k]
  | x :: xs => if strLt x k then x :: insertKey k xs else k :: x :: xs

/-- The call `slices.Sort(keys)`: the keys of a map are distinct, so the
sorted sequence does not depend on the sorting algorithm. -/
def sortKeys (keys : List Bytes) : List Bytes :=
  keys.foldr insertKey []

/-- The lookup `v[k]`. -/
def Values.lookup (v : Values) (k : Bytes) : List Bytes :=
  match v.find? (fun e => e.1 = k) with
  | some e => e.2
  | none => []

/-- The method `Values.Encode`: the pairs `key=value`, both query-escaped,
joined by `&`, in ascending order of key. -/
def Values.Encode (v : Values) : Bytes :=
  let keys := sortKeys (v.map (fun e => e.1))
  let pairs := keys.flatMap (fun k =>
    (Values.lookup v k).map (fun value => QueryEscape k ++ [61] ++ QueryEscape value))
  List.intercalate [38] pairs

/-- The fields of `url.URL` that the source sets; every other field has its
zero value (`Opaque`, `RawPath`, `Fragment` empty, `User` nil, `OmitHost`,
`ForceQuery` false). -/
structure URL where
  Scheme : Bytes
  Host : Bytes
  Path : Bytes
  RawQuery : Bytes
deriving DecidableEq, Repr

/-- The method `URL.EscapedPath` when `RawPath` is empty. -/
def URL.EscapedPath (u : URL) : Bytes :=
  if u.Path = ascii "*" then ascii "*" else escape u.Path .encodePath

/-- The method `URL.String` on a URL whose other fields are zero. -/
def URL.String (u : URL) : Bytes :=
  let buf : Bytes := []
  let buf := if u.Scheme ≠ [] then buf ++ u.Scheme ++ [58] else buf
  let buf :=
    if u.Scheme ≠ [] ∨ u.Host ≠ [] then
      let buf := if u.Host ≠ [] ∨ u.Path ≠ [] then buf ++ ascii "//" else buf
      if u.Host ≠ [] then buf ++ escape u.Host .encodeHost else buf
    else buf
  let path := u.EscapedPath
  let buf := if path ≠ [] ∧ path.head? ≠ some 47 ∧ u.Host ≠ [] then buf ++ [47] else buf
  let buf :=
    if buf.length = 0 then
      if 58 ∈ path.takeWhile (fun c => c ≠ 47) then buf ++ ascii "./" else buf
    else buf
  let buf := buf ++ path
  let buf := if u.RawQuery ≠ [] then buf ++ [63] ++ u.RawQuery else buf
  buf

end Url

/-! ## fmt -/

/-- The call `fmt.Sprintf("%d", n)`. -/
def sprintfD (n : Int) : Bytes :=
  if n < 0 then 45 :: fmtDigits n.natAbs n.natAbs [] else fmtDigits n.natAbs n.natAbs []

/-! ## generateProvisioningUrl -/

def typeHotp : Bytes := ascii "hotp"
def typeTotp : Bytes := ascii "totp"
def otpAuthSheme : Bytes := ascii "otpauth"
def secretKey : Bytes := ascii "secret"
def issuerKey : Bytes := ascii "issuer"
def digitsKey : Bytes := ascii "digits"
def periodKey : Bytes := ascii "period"
def defaultDigits : Int := 6

/-- The function `generateProvisioningUrl` of `otp.go`.  The argument `extra`
is a Go map, which the calls of `Add` update in place: the result is the
returned string together with the map as the caller finds it afterwards.  A
nil map is `none`; `Add` panics on it, and so does the function. -/
def generateProvisioningUrl (otpType accountName issuer : Bytes) (digits : Int) (key : Bytes)
    (extra : Option Url.Values) : Option (Bytes × Url.Values) :=
  match extra with
  | none => none
  | some extra =>
    let extra := Url.Values.Add extra secretKey (encodeKey key)
    let extra := Url.Values.Add extra issuerKey issuer
    let extra :=
      if digits ≠ defaultDigits then Url.Values.Add extra digitsKey (sprintfD digits) else extra
    let u : Url.URL :=
      { Scheme := otpAuthSheme
        Host := otpType
        Path := Url.PathEscape issuer ++ ascii ":" ++ Url.PathEscape accountName
        RawQuery := Url.Values.Encode extra }
    some (u.String, extra)

/-! ## TOTP counter (`TestSmt`, step 1.3) -/

/-- The `int64` that Go computes for an expression whose mathematical value
is `x`: signed 64-bit arithmetic wraps around. -/
def wrapInt64 (x : Int) : Int := (x + 2 ^ 63) % 2 ^ 64 - 2 ^ 63

/-- Step 1.3 of `TestSmt`: `counter := (time.Now().Unix() - T0) / TX`, with
`now` the value of `time.Now().Unix()`; `T0` and `TX` are the `int64`
variables of the test (`0` and `30` there).  The subtraction wraps, the
division truncates toward zero, and dividing by zero panics. -/
def counter (now T0 TX : Int) : Option Int :=
  if TX = 0 then none else some (wrapInt64 (Int.tdiv (wrapInt64 (now - T0)) TX))

namespace Url

/-- The keys of the map. -/
def Values.keys (v : Values) : List Bytes := v.map (fun e => e.1)

/-- The `key=value` texts that `Values.Encode` joins with `&`, in the order
in which it writes them. -/
def Values.pairs (v : Values) : List Bytes :=
  (sortKeys (v.map (fun e => e.1))).flatMap (fun k =>
    (Values.lookup v k).map (fun value => QueryEscape k ++ [61] ++ QueryEscape value))

end Url

/-! # Theorems -/

/-! ## Lemmas: SHA-1 digest length -/

theorem Sha1.block_length (h : List Nat) (p : Bytes) : (Sha1.block h p).length = 5 := by
  unfold Sha1.block
  rfl

theorem Sha1.blocks_length (n : Nat) : ∀ (h : List Nat) (p : Bytes), h.length = 5 →
    (Sha1.blocks n h p).length = 5 := by
  induction n with
  | zero => intro h p hh; simpa [Sha1.blocks] using hh
  | succ n ih => intro h p _; exact ih _ _ (Sha1.block_length h p)

/-- The embedded `sha1.Sum` on the test vectors `""` and `"abc"` of FIPS 180. -/
theorem Sha1.Sum_vectors :
    Sha1.Sum [] =
      [0xda, 0x39, 0xa3, 0xee, 0x5e, 0x6b, 0x4b, 0x0d, 0x32, 0x55, 0xbf, 0xef, 0x95, 0x60, 0x18,
        0x90, 0xaf, 0xd8, 0x07, 0x09] ∧
    Sha1.Sum (ascii "abc") =
      [0xa9, 0x99, 0x3e, 0x36, 0x47, 0x06, 0x81, 0x6a, 0xba, 0x3e, 0x25, 0x71, 0x78, 0x50, 0xc2,
        0x6c, 0x9c, 0xd0, 0xd8, 0x9d] := by
  set_option maxRecDepth 1000000 in
  exact ⟨by decide, by decide⟩

theorem Sha1.Sum_length (data : Bytes) : (Sha1.Sum data).length = 20 := by
  have h5 := Sha1.blocks_length ((Sha1.padded data).length / 64) Sha1.init (Sha1.padded data) rfl
  unfold Sha1.Sum
  simp only []
  generalize Sha1.blocks ((Sha1.padded data).length / 64) Sha1.init (Sha1.padded data) = l at h5
  match l, h5 with
  | [a, b, c, d, e], _ => rfl

/-- C2. For every key, of any length, `adjustForSha1 key` has length exactly
64, the SHA-1 HMAC block size. -/
theorem adjustForSha1_length (key : Bytes) : (adjustForSha1 key).length = 64 := by
  unfold adjustForSha1
  simp only [Sha1.BlockSize]
  by_cases h : key.length > 64
  · simp [h, Sha1.Sum_length]
  · simp only [h, if_false]
    by_cases h2 : key.length < 64
    · simp [h2]; omega
    · simp only [h2, if_false]; omega

/-- C3. For every key with `len(key) <= 64`, `adjustForSha1 key` is the key
followed by `64 - len(key)` zero bytes: its first `len(key)` bytes are the
key, every later byte is 0, and a key of exactly 64 bytes is returned
unchanged. -/
theorem adjustForSha1_short (key : Bytes) (h : key.length ≤ 64) :
    adjustForSha1 key = key ++ List.replicate (64 - key.length) 0 ∧
    (adjustForSha1 key).take key.length = key ∧
    (∀ i, key.length ≤ i → i < 64 → (adjustForSha1 key)[i]? = some 0) ∧
    (key.length = 64 → adjustForSha1 key = key) := by
  have hmain : adjustForSha1 key = key ++ List.replicate (64 - key.length) 0 := by
    unfold adjustForSha1
    simp only [Sha1.BlockSize]
    have h1 : ¬ key.length > 64 := by omega
    simp only [h1, if_false]
    by_cases h2 : key.length < 64
    · simp [h2]
    · have h3 : key.length = 64 := by omega
      simp [h3]
  refine ⟨hmain, ?_, ?_, ?_⟩
  · rw [hmain]; simp
  · intro i hi hi64
    rw [hmain, List.getElem?_append_right hi]
    simp [List.getElem?_replicate]
    omega
  · intro h64
    rw [hmain, h64]; simp

theorem adjustForSha1_short_witness :
    (ascii "SHARED_KEYWORD_OVER_HERE").length ≤ 64 ∧
    adjustForSha1 (ascii "SHARED_KEYWORD_OVER_HERE") =
      ascii "SHARED_KEYWORD_OVER_HERE" ++ List.replicate 40 0 :=
  ⟨by decide, (adjustForSha1_short (ascii "SHARED_KEYWORD_OVER_HERE") (by decide)).1⟩

/-- C4. For every key with `len(key) > 64`, `adjustForSha1 key` is the
20-byte SHA-1 digest of the key followed by 44 zero bytes. -/
theorem adjustForSha1_long (key : Bytes) (h : key.length > 64) :
    adjustForSha1 key = Sha1.Sum key ++ List.replicate 44 0 ∧ (Sha1.Sum key).length = 20 := by
  refine ⟨?_, Sha1.Sum_length key⟩
  unfold adjustForSha1
  simp [Sha1.BlockSize, h, Sha1.Sum_length]

theorem adjustForSha1_long_witness :
    (List.replicate 65 97).length > 64 ∧
    Sha1.Sum (List.replicate 65 97) =
      [0x11, 0x65, 0x53, 0x26, 0xc7, 0x08, 0xd7, 0x03, 0x19, 0xbe, 0x26, 0x10, 0xe8, 0xa5, 0x7d,
        0x9a, 0x5b, 0x95, 0x9d, 0x3b] ∧
    adjustForSha1 (List.replicate 65 97) = Sha1.Sum (List.replicate 65 97) ++ List.replicate 44 0 := by
  set_option maxRecDepth 1000000 in
  exact ⟨by decide, by decide, (adjustForSha1_long (List.replicate 65 97) (by decide)).1⟩

/-! ## Lemmas: bitwise operations as arithmetic -/

theorem lor_eq_add (a b k : Nat) (ha : a % 2 ^ k = 0) (hb : b < 2 ^ k) : a ||| b = a + b := by
  obtain ⟨c, rfl⟩ := Nat.dvd_of_mod_eq_zero ha
  exact (Nat.mul_add_lt_is_or hb c).symm

theorem land_0x0f (x : Nat) : x &&& 0x0f = x % 16 := Nat.and_pow_two_sub_one_eq_mod x 4
theorem land_0x1f (x : Nat) : x &&& 0x1F = x % 32 := Nat.and_pow_two_sub_one_eq_mod x 5
theorem land_0x7f (x : Nat) : x &&& 0x7f = x % 128 := Nat.and_pow_two_sub_one_eq_mod x 7
theorem land_0xff (x : Nat) : x &&& 0xff = x % 256 := Nat.and_pow_two_sub_one_eq_mod x 8

/-- The big-endian combination of step 3, as arithmetic. -/
theorem masked_arith (g0 g1 g2 g3 : Nat) (h1 : g1 < 256) (h2 : g2 < 256)
    (h3 : g3 < 256) :
    ((g0 &&& 0x7f) <<< 24) ||| ((g1 &&& 0xff) <<< 16) ||| ((g2 &&& 0xff) <<< 8) ||| (g3 &&& 0xff)
      = (g0 * 2 ^ 24 + g1 * 2 ^ 16 + g2 * 2 ^ 8 + g3) % 2 ^ 31 := by
  rw [land_0x7f, land_0xff, land_0xff, land_0xff]
  simp only [Nat.shiftLeft_eq]
  rw [lor_eq_add (g0 % 128 * 2 ^ 24) (g1 % 256 * 2 ^ 16) 24 (by omega) (by omega),
    lor_eq_add _ (g2 % 256 * 2 ^ 8) 16 (by omega) (by omega),
    lor_eq_add _ (g3 % 256) 8 (by omega) (by omega)]
  omega

/-! ## Dynamic truncation -/

theorem exists_getElem? (l : Bytes) (i : Nat) (h : i < l.length) : ∃ v, v ∈ l ∧ l[i]? = some v :=
  ⟨l[i], List.getElem_mem h, List.getElem?_eq_getElem h⟩

/-- On a digest of at least 20 bytes every read of the truncation is in range. -/
theorem truncation_reads (digest : Bytes) (hlen : 20 ≤ digest.length) :
    ∃ last g0 g1 g2 g3,
      (g0 ∈ digest ∧ g1 ∈ digest ∧ g2 ∈ digest ∧ g3 ∈ digest) ∧
      digest[digest.length - 1]? = some last ∧
      digest[last &&& 0x0f]? = some g0 ∧ digest[(last &&& 0x0f) + 1]? = some g1 ∧
      digest[(last &&& 0x0f) + 2]? = some g2 ∧ digest[(last &&& 0x0f) + 3]? = some g3 ∧
      truncOffset digest = some (last &&& 0x0f) ∧
      maskedOTPBinary digest =
        some (((g0 &&& 0x7f) <<< 24) ||| ((g1 &&& 0xff) <<< 16) ||| ((g2 &&& 0xff) <<< 8) |||
          (g3 &&& 0xff)) := by
  obtain ⟨last, -, hlast⟩ := exists_getElem? digest (digest.length - 1) (by omega)
  have ho : (last &&& 0x0f) + 3 < digest.length := by rw [land_0x0f]; omega
  obtain ⟨g0, m0, e0⟩ := exists_getElem? digest (last &&& 0x0f) (by omega)
  obtain ⟨g1, m1, e1⟩ := exists_getElem? digest ((last &&& 0x0f) + 1) (by omega)
  obtain ⟨g2, m2, e2⟩ := exists_getElem? digest ((last &&& 0x0f) + 2) (by omega)
  obtain ⟨g3, m3, e3⟩ := exists_getElem? digest ((last &&& 0x0f) + 3) (by omega)
  have hoff : truncOffset digest = some (last &&& 0x0f) := by
    simp [truncOffset, hlast]
  refine ⟨last, g0, g1, g2, g3, ⟨m0, m1, m2, m3⟩, hlast, e0, e1, e2, e3, hoff, ?_⟩
  simp [maskedOTPBinary, hoff, e0, e1, e2, e3]

/-- C5. For every digest of at least 20 bytes, with `offset` the low 4 bits
of the last byte and `p` the 4 bytes at `digest[offset .. offset+3]`, the
value computed by `TestSmt` is `(p[0]&0x7F)<<24 | p[1]<<16 | p[2]<<8 | p[3]`,
which is the big-endian 32-bit integer of `p` modulo `2^31`, and so lies
below `2^31`. -/
theorem maskedOTPBinary_value (digest : Bytes) (hlen : 20 ≤ digest.length) (hb : IsBytes digest) :
    ∃ last p0 p1 p2 p3 value,
      digest[digest.length - 1]? = some last ∧
      digest[last &&& 0x0F]? = some p0 ∧ digest[(last &&& 0x0F) + 1]? = some p1 ∧
      digest[(last &&& 0x0F) + 2]? = some p2 ∧ digest[(last &&& 0x0F) + 3]? = some p3 ∧
      maskedOTPBinary digest = some value ∧
      value = (((p0 &&& 0x7F) <<< 24) ||| (p1 <<< 16) ||| (p2 <<< 8) ||| p3) ∧
      value = (p0 * 2 ^ 24 + p1 * 2 ^ 16 + p2 * 2 ^ 8 + p3) % 2 ^ 31 ∧
      value < 2 ^ 31 := by
  obtain ⟨last, g0, g1, g2, g3, ⟨m0, m1, m2, m3⟩, hlast, e0, e1, e2, e3, -, hv⟩ :=
    truncation_reads digest hlen
  have h1 := hb g1 m1
  have h2 := hb g2 m2
  have h3 := hb g3 m3
  have harith := masked_arith g0 g1 g2 g3 h1 h2 h3
  refine ⟨last, g0, g1, g2, g3, _, hlast, e0, e1, e2, e3, hv, ?_, harith, ?_⟩
  · rw [land_0xff, land_0xff, land_0xff, Nat.mod_eq_of_lt h1, Nat.mod_eq_of_lt h2,
      Nat.mod_eq_of_lt h3]
  · rw [harith]; exact Nat.mod_lt _ (by norm_num)

theorem maskedOTPBinary_value_witness :
    20 ≤ exampleDigest.length ∧ IsBytes exampleDigest ∧
    truncOffset exampleDigest = some 10 ∧
    maskedOTPBinary exampleDigest = some 0x50ef7f19 ∧
    maskedOTPBinary exampleDigest = some 1357872921 ∧
    otpValue exampleDigest 6 = some 872921 ∧
    (∃ last p0 p1 p2 p3 value,
      exampleDigest[exampleDigest.length - 1]? = some last ∧
      exampleDigest[last &&& 0x0F]? = some p0 ∧ exampleDigest[(last &&& 0x0F) + 1]? = some p1 ∧
      exampleDigest[(last &&& 0x0F) + 2]? = some p2 ∧
      exampleDigest[(last &&& 0x0F) + 3]? = some p3 ∧
      maskedOTPBinary exampleDigest = some value ∧
      value = (((p0 &&& 0x7F) <<< 24) ||| (p1 <<< 16) ||| (p2 <<< 8) ||| p3) ∧
      value = (p0 * 2 ^ 24 + p1 * 2 ^ 16 + p2 * 2 ^ 8 + p3) % 2 ^ 31 ∧
      value < 2 ^ 31) :=
  ⟨by decide, by decide, by decide, by decide, by decide, by decide,
    maskedOTPBinary_value exampleDigest (by decide) (by decide)⟩

/-- C7. For every digest of at least 20 bytes the offset (last byte `& 0x0F`)
lies in `0..15` and the four indices `offset .. offset+3` read by the
truncation are within the digest: no read is out of bounds, so the
truncation returns a value. -/
theorem truncation_in_bounds (digest : Bytes) (hlen : 20 ≤ digest.length) :
    ∃ offset, truncOffset digest = some offset ∧ offset ≤ 15 ∧
      offset < digest.length ∧ offset + 1 < digest.length ∧
      offset + 2 < digest.length ∧ offset + 3 < digest.length ∧
      (maskedOTPBinary digest).isSome = true := by
  obtain ⟨last, g0, g1, g2, g3, -, -, -, -, -, -, hoff, hv⟩ := truncation_reads digest hlen
  have ho : (last &&& 0x0f) ≤ 15 := by rw [land_0x0f]; omega
  refine ⟨_, hoff, ho, ?_, ?_, ?_, ?_, ?_⟩ <;> first | omega | simp [hv]

theorem truncation_in_bounds_witness :
    20 ≤ exampleDigest.length ∧
    ∃ offset, truncOffset exampleDigest = some offset ∧ offset ≤ 15 ∧
      offset < exampleDigest.length ∧ offset + 1 < exampleDigest.length ∧
      offset + 2 < exampleDigest.length ∧ offset + 3 < exampleDigest.length ∧
      (maskedOTPBinary exampleDigest).isSome = true :=
  ⟨by decide, truncation_in_bounds exampleDigest (by decide)⟩

/-! ## Zero-padded decimal rendering -/

theorem fmtDigits_length (fuel : Nat) : ∀ (u d : Nat) (acc : Bytes), 1 ≤ d → u < 10 ^ d →
    (fmtDigits fuel u acc).length ≤ d + acc.length := by
  induction fuel with
  | zero => intro u d acc hd _; simp [fmtDigits]; omega
  | succ fuel ih =>
    intro u d acc hd hu
    unfold fmtDigits
    by_cases h10 : u ≥ 10
    · simp only [h10, if_true]
      obtain ⟨e, rfl⟩ : ∃ e, d = e + 1 := ⟨d - 1, by omega⟩
      have he : 1 ≤ e := by
        rcases Nat.eq_zero_or_pos e with h0 | h0
        · subst h0; simp at hu; omega
        · exact h0
      have hdiv : u / 10 < 10 ^ e := by
        rw [Nat.div_lt_iff_lt_mul (by norm_num)]
        rw [pow_succ] at hu; exact hu
      have := ih (u / 10) e ((48 + u - u / 10 * 10) :: acc) he hdiv
      simp only [List.length_cons] at this
      omega
    · simp only [h10, if_false, List.length_cons]; omega

theorem fmtDigits_digits (fuel : Nat) : ∀ (u : Nat) (acc : Bytes), u ≤ fuel →
    (∀ c ∈ acc, 48 ≤ c ∧ c ≤ 57) → ∀ c ∈ fmtDigits fuel u acc, 48 ≤ c ∧ c ≤ 57 := by
  induction fuel with
  | zero =>
    intro u acc hu hacc c hc
    simp only [fmtDigits, List.mem_cons] at hc
    rcases hc with rfl | hc
    · omega
    · exact hacc c hc
  | succ fuel ih =>
    intro u acc hu hacc c hc
    unfold fmtDigits at hc
    by_cases h10 : u ≥ 10
    · simp only [h10, if_true] at hc
      refine ih (u / 10) _ (by omega) ?_ c hc
      intro x hx
      simp only [List.mem_cons] at hx
      rcases hx with rfl | hx
      · omega
      · exact hacc x hx
    · simp only [h10, if_false, List.mem_cons] at hc
      rcases hc with rfl | hc
      · omega
      · exact hacc c hc

/-- A value below `10 ^ d` is rendered by `%0*d` with width `d` as exactly
`d` decimal digits. -/
theorem fmtZeroPad_spec (d u : Nat) (hd : 1 ≤ d) (hu : u < 10 ^ d) :
    (fmtZeroPad d u).length = d ∧ ∀ c ∈ fmtZeroPad d u, 48 ≤ c ∧ c ≤ 57 := by
  have hlen := fmtDigits_length u u d [] hd hu
  have hdig := fmtDigits_digits u u [] (le_refl u) (by simp)
  simp only [List.length_nil, Nat.add_zero] at hlen
  unfold fmtZeroPad
  constructor
  · simp only [List.length_append, List.length_replicate]; omega
  · intro c hc
    simp only [List.mem_append] at hc
    rcases hc with hc | hc
    · have := List.eq_of_mem_replicate hc
      omega
    · exact hdig c hc

/-- C6. For every digest of at least 20 bytes and every digit count `d` with
`1 <= d <= 10`, the code `value mod 10^d` of the truncation steps is below
`10^d`, and its rendering as a decimal string left-padded with `'0'` to
width `d` has exactly `d` characters, all of them decimal digits. -/
theorem otpValue_rendered (digest : Bytes) (d : Nat) (hlen : 20 ≤ digest.length)
    (hd1 : 1 ≤ d) (_hd10 : d ≤ 10) :
    ∃ value code, maskedOTPBinary digest = some value ∧ otpValue digest d = some code ∧
      code = value % 10 ^ d ∧ 0 ≤ code ∧ code < 10 ^ d ∧
      (fmtZeroPad d code).length = d ∧
      ∀ c ∈ fmtZeroPad d code, c ∈ ascii "0123456789" := by
  obtain ⟨last, g0, g1, g2, g3, -, -, -, -, -, -, -, hv⟩ := truncation_reads digest hlen
  have hlt : ∀ v : Nat, v % 10 ^ d < 10 ^ d := fun v => Nat.mod_lt _ (by positivity)
  have hspec := fmtZeroPad_spec d _ hd1 (hlt (((g0 &&& 0x7f) <<< 24) ||| ((g1 &&& 0xff) <<< 16) ||| ((g2 &&& 0xff) <<< 8) ||| (g3 &&& 0xff)))
  refine ⟨_, _, hv, by simp [otpValue, hv, pow10], rfl, Nat.zero_le _, hlt _, hspec.1, ?_⟩
  intro c hc
  have := hspec.2 c hc
  have h10 : ascii "0123456789" = [48, 49, 50, 51, 52, 53, 54, 55, 56, 57] := by decide
  rw [h10]
  simp only [List.mem_cons, List.mem_singleton, List.not_mem_nil, or_false]
  omega

theorem otpValue_rendered_witness :
    20 ≤ exampleDigest.length ∧ 1 ≤ 10 ∧ 10 ≤ 10 ∧
    otpValue exampleDigest 10 = some 1357872921 ∧
    fmtZeroPad 10 1357872921 = ascii "1357872921" ∧
    fmtZeroPad 6 (0x50ef7f19 % 10 ^ 6) = ascii "872921" ∧
    fmtZeroPad 6 42 = ascii "000042" ∧
    ∃ value code, maskedOTPBinary exampleDigest = some value ∧
      otpValue exampleDigest 10 = some code ∧
      code = value % 10 ^ 10 ∧ 0 ≤ code ∧ code < 10 ^ 10 ∧
      (fmtZeroPad 10 code).length = 10 ∧
      ∀ c ∈ fmtZeroPad 10 code, c ∈ ascii "0123456789" :=
  ⟨by decide, by decide, by decide, by decide, by decide, by decide, by decide,
    otpValue_rendered exampleDigest 10 (by decide) (by decide) (by decide)⟩

/-! ## Base32: the alphabet -/

namespace Base32

theorem encodeChar_mem : ∀ v, v < 32 → encodeChar v ∈ encodeHex := by decide

theorem encodeChar_ne_pad : ∀ v, v < 32 → encodeChar v ≠ 61 := by decide

theorem encodeChar_not_newline : ∀ v, v < 32 → encodeChar v ≠ 13 ∧ encodeChar v ≠ 10 := by decide

theorem decodeMap_encodeChar : ∀ v, v < 32 → decodeMap (encodeChar v) = v := by decide

theorem pad_not_mem : (61 : Nat) ∉ encodeHex := by decide

/-! ## Base32: blocks as arithmetic -/

/-- The union of a low part and a shifted high part is their sum. -/
theorem lo_lor_hi (a b k : Nat) (ha : a < 2 ^ k) (hb : b % 2 ^ k = 0) : a ||| b = a + b := by
  rw [Nat.lor_comm, lor_eq_add b a k hb ha, Nat.add_comm]

theorem shr_eq (x k : Nat) : x >>> k = x / 2 ^ k := Nat.shiftRight_eq_div_pow x k

theorem shl_eq (x k : Nat) : x <<< k = x * 2 ^ k := Nat.shiftLeft_eq x k

/-- The embedded encoder and decoder on the base32hex test vectors of
RFC 4648, section 10. -/
theorem rfc4648_vectors :
    EncodeToString (ascii "") = ascii "" ∧
    EncodeToString (ascii "f") = ascii "CO======" ∧
    EncodeToString (ascii "fo") = ascii "CPNG====" ∧
    EncodeToString (ascii "foo") = ascii "CPNMU===" ∧
    EncodeToString (ascii "foob") = ascii "CPNMUOG=" ∧
    EncodeToString (ascii "fooba") = ascii "CPNMUOJ1" ∧
    EncodeToString (ascii "foobar") = ascii "CPNMUOJ1E8======" ∧
    DecodeString (ascii "CPNMUOJ1E8======") = .ok (ascii "foobar") ∧
    DecodeString (ascii "CPNMUOG=") = .ok (ascii "foob") :=
  ⟨by decide, by decide, by decide, by decide, by decide, by decide, by decide, rfl, rfl⟩

/-- The blocks of a full quantum, as arithmetic on its five bytes. -/
theorem unpack_five (s0 s1 s2 s3 s4 : Nat) (rest : Bytes) (h1 : s1 < 256)
    (h2 : s2 < 256) (h3 : s3 < 256) (h4 : s4 < 256) :
    unpack (s0 :: s1 :: s2 :: s3 :: s4 :: rest) =
      [s0 / 8, s1 / 64 + s0 % 8 * 4, s1 / 2 % 32, s2 / 16 + s1 % 2 * 16, s3 / 128 + s2 % 16 * 2,
        s3 / 4 % 32, s4 / 32 + s3 % 4 * 8, s4 % 32] := by
  simp only [unpack, List.length_cons, List.getD_cons_zero, List.getD_cons_succ]
  simp only [land_0x1f, shr_eq, shl_eq, Nat.reducePow]
  have e1 : s1 / 64 % 32 ||| s0 * 4 % 256 % 32 = s1 / 64 + s0 % 8 * 4 := by
    rw [lo_lor_hi _ _ 2 (by omega) (by omega)]; omega
  have e3 : s2 / 16 % 32 ||| s1 * 16 % 256 % 32 = s2 / 16 + s1 % 2 * 16 := by
    rw [lo_lor_hi _ _ 4 (by omega) (by omega)]; omega
  have e4 : s3 / 128 ||| s2 * 2 % 256 % 32 = s3 / 128 + s2 % 16 * 2 := by
    rw [lo_lor_hi _ _ 1 (by omega) (by omega)]; omega
  have e6 : s4 / 32 ||| s3 * 8 % 256 % 32 = s4 / 32 + s3 % 4 * 8 := by
    rw [lo_lor_hi _ _ 3 (by omega) (by omega)]; omega
  simp only [e1, e3, e4, e6, if_true, Nat.le_add_left, Nat.reduceLeDiff]

/-- The bytes packed from the blocks of a full quantum are its five bytes. -/
theorem pack_five (s0 s1 s2 s3 s4 : Nat) (h0 : s0 < 256) (h1 : s1 < 256)
    (h2 : s2 < 256) (h3 : s3 < 256) (h4 : s4 < 256) :
    pack [s0 / 8, s1 / 64 + s0 % 8 * 4, s1 / 2 % 32, s2 / 16 + s1 % 2 * 16, s3 / 128 + s2 % 16 * 2,
        s3 / 4 % 32, s4 / 32 + s3 % 4 * 8, s4 % 32] 8 = [s0, s1, s2, s3, s4] := by
  simp only [pack, List.getD_cons_zero, List.getD_cons_succ]
  simp only [shr_eq, shl_eq, Nat.reducePow, true_or, if_true, List.append_assoc,
    List.singleton_append, List.cons_append, List.nil_append]
  have o0 : s0 / 8 * 8 ||| (s1 / 64 + s0 % 8 * 4) / 4 = s0 := by
    rw [lor_eq_add _ _ 3 (by omega) (by omega)]; omega
  have o1 : ((s1 / 64 + s0 % 8 * 4) * 64 ||| s1 / 2 % 32 * 2 ||| (s2 / 16 + s1 % 2 * 16) / 16) % 256
      = s1 := by
    rw [lor_eq_add ((s1 / 64 + s0 % 8 * 4) * 64) (s1 / 2 % 32 * 2) 6 (by omega) (by omega),
      lor_eq_add _ ((s2 / 16 + s1 % 2 * 16) / 16) 1 (by omega) (by omega)]
    omega
  have o2 : ((s2 / 16 + s1 % 2 * 16) * 16 ||| (s3 / 128 + s2 % 16 * 2) / 2) % 256 = s2 := by
    rw [lor_eq_add _ _ 4 (by omega) (by omega)]; omega
  have o3 : ((s3 / 128 + s2 % 16 * 2) * 128 ||| s3 / 4 % 32 * 4 ||| (s4 / 32 + s3 % 4 * 8) / 8) % 256
      = s3 := by
    rw [lor_eq_add ((s3 / 128 + s2 % 16 * 2) * 128) (s3 / 4 % 32 * 4) 7 (by omega) (by omega),
      lor_eq_add _ ((s4 / 32 + s3 % 4 * 8) / 8) 2 (by omega) (by omega)]
    omega
  have o4 : ((s4 / 32 + s3 % 4 * 8) * 32 ||| s4 % 32) % 256 = s4 := by
    rw [lor_eq_add _ _ 5 (by omega) (by omega)]; omega
  rw [o0, o1, o2, o3, o4, Nat.mod_eq_of_lt h0]

theorem unpack_four (s0 s1 s2 s3 : Nat) (h1 : s1 < 256) (h2 : s2 < 256) (h3 : s3 < 256) :
    unpack [s0, s1, s2, s3] =
      [s0 / 8, s1 / 64 + s0 % 8 * 4, s1 / 2 % 32, s2 / 16 + s1 % 2 * 16, s3 / 128 + s2 % 16 * 2,
        s3 / 4 % 32, s3 % 4 * 8, 0] := by
  simp only [unpack, List.length_cons, List.length_nil, List.getD_cons_zero, List.getD_cons_succ]
  simp only [land_0x1f, shr_eq, shl_eq, Nat.reducePow]
  have e1 : s1 / 64 % 32 ||| s0 * 4 % 256 % 32 = s1 / 64 + s0 % 8 * 4 := by
    rw [lo_lor_hi _ _ 2 (by omega) (by omega)]; omega
  have e3 : s2 / 16 % 32 ||| s1 * 16 % 256 % 32 = s2 / 16 + s1 % 2 * 16 := by
    rw [lo_lor_hi _ _ 4 (by omega) (by omega)]; omega
  have e4 : s3 / 128 ||| s2 * 2 % 256 % 32 = s3 / 128 + s2 % 16 * 2 := by
    rw [lo_lor_hi _ _ 1 (by omega) (by omega)]; omega
  have e6 : s3 * 8 % 256 % 32 = s3 % 4 * 8 := by omega
  simp [e1, e3, e4, e6]

theorem unpack_three (s0 s1 s2 : Nat) (h1 : s1 < 256) (h2 : s2 < 256) :
    unpack [s0, s1, s2] =
      [s0 / 8, s1 / 64 + s0 % 8 * 4, s1 / 2 % 32, s2 / 16 + s1 % 2 * 16, s2 % 16 * 2, 0, 0, 0] := by
  simp only [unpack, List.length_cons, List.length_nil, List.getD_cons_zero, List.getD_cons_succ]
  simp only [land_0x1f, shr_eq, shl_eq, Nat.reducePow]
  have e1 : s1 / 64 % 32 ||| s0 * 4 % 256 % 32 = s1 / 64 + s0 % 8 * 4 := by
    rw [lo_lor_hi _ _ 2 (by omega) (by omega)]; omega
  have e3 : s2 / 16 % 32 ||| s1 * 16 % 256 % 32 = s2 / 16 + s1 % 2 * 16 := by
    rw [lo_lor_hi _ _ 4 (by omega) (by omega)]; omega
  have e4 : s2 * 2 % 256 % 32 = s2 % 16 * 2 := by omega
  simp [e1, e3, e4]

theorem unpack_two (s0 s1 : Nat) (h1 : s1 < 256) :
    unpack [s0, s1] = [s0 / 8, s1 / 64 + s0 % 8 * 4, s1 / 2 % 32, s1 % 2 * 16, 0, 0, 0, 0] := by
  simp only [unpack, List.length_cons, List.length_nil, List.getD_cons_zero, List.getD_cons_succ]
  simp only [land_0x1f, shr_eq, shl_eq, Nat.reducePow]
  have e1 : s1 / 64 % 32 ||| s0 * 4 % 256 % 32 = s1 / 64 + s0 % 8 * 4 := by
    rw [lo_lor_hi _ _ 2 (by omega) (by omega)]; omega
  have e3 : s1 * 16 % 256 % 32 = s1 % 2 * 16 := by omega
  simp [e1, e3]

theorem unpack_one (s0 : Nat) : unpack [s0] = [s0 / 8, s0 % 8 * 4, 0, 0, 0, 0, 0, 0] := by
  simp only [unpack, List.length_cons, List.length_nil, List.getD_cons_zero, List.getD_cons_succ]
  simp only [land_0x1f, shr_eq, shl_eq, Nat.reducePow]
  have e1 : s0 * 4 % 256 % 32 = s0 % 8 * 4 := by omega
  simp [e1]

theorem pack_four (s0 s1 s2 s3 : Nat) (h0 : s0 < 256) (h1 : s1 < 256) (h2 : s2 < 256)
    (h3 : s3 < 256) :
    pack [s0 / 8, s1 / 64 + s0 % 8 * 4, s1 / 2 % 32, s2 / 16 + s1 % 2 * 16, s3 / 128 + s2 % 16 * 2,
        s3 / 4 % 32, s3 % 4 * 8] 7 = [s0, s1, s2, s3] := by
  simp only [pack, List.getD_cons_zero, List.getD_cons_succ]
  simp only [shr_eq, shl_eq, Nat.reducePow, true_or, or_true, if_true, List.append_assoc,
    List.singleton_append, List.cons_append, List.nil_append]
  have o0 : (s0 / 8 * 8 ||| (s1 / 64 + s0 % 8 * 4) / 4) % 256 = s0 := by
    rw [lor_eq_add _ _ 3 (by omega) (by omega)]; omega
  have o1 : ((s1 / 64 + s0 % 8 * 4) * 64 ||| s1 / 2 % 32 * 2 ||| (s2 / 16 + s1 % 2 * 16) / 16) % 256
      = s1 := by
    rw [lor_eq_add ((s1 / 64 + s0 % 8 * 4) * 64) (s1 / 2 % 32 * 2) 6 (by omega) (by omega),
      lor_eq_add _ ((s2 / 16 + s1 % 2 * 16) / 16) 1 (by omega) (by omega)]
    omega
  have o2 : ((s2 / 16 + s1 % 2 * 16) * 16 ||| (s3 / 128 + s2 % 16 * 2) / 2) % 256 = s2 := by
    rw [lor_eq_add _ _ 4 (by omega) (by omega)]; omega
  have o3 : ((s3 / 128 + s2 % 16 * 2) * 128 ||| s3 / 4 % 32 * 4 ||| s3 % 4 * 8 / 8) % 256
      = s3 := by
    rw [lor_eq_add ((s3 / 128 + s2 % 16 * 2) * 128) (s3 / 4 % 32 * 4) 7 (by omega) (by omega),
      lor_eq_add _ (s3 % 4 * 8 / 8) 2 (by omega) (by omega)]
    omega
  rw [o0, o1, o2, o3]
  simp

theorem pack_three (s0 s1 s2 : Nat) (h0 : s0 < 256) (h1 : s1 < 256) (h2 : s2 < 256) :
    pack [s0 / 8, s1 / 64 + s0 % 8 * 4, s1 / 2 % 32, s2 / 16 + s1 % 2 * 16, s2 % 16 * 2] 5
      = [s0, s1, s2] := by
  simp only [pack, List.getD_cons_zero, List.getD_cons_succ]
  simp only [shr_eq, shl_eq, Nat.reducePow, true_or, or_true, if_true, List.append_assoc,
    List.singleton_append, List.cons_append, List.nil_append]
  have o0 : (s0 / 8 * 8 ||| (s1 / 64 + s0 % 8 * 4) / 4) % 256 = s0 := by
    rw [lor_eq_add _ _ 3 (by omega) (by omega)]; omega
  have o1 : ((s1 / 64 + s0 % 8 * 4) * 64 ||| s1 / 2 % 32 * 2 ||| (s2 / 16 + s1 % 2 * 16) / 16) % 256
      = s1 := by
    rw [lor_eq_add ((s1 / 64 + s0 % 8 * 4) * 64) (s1 / 2 % 32 * 2) 6 (by omega) (by omega),
      lor_eq_add _ ((s2 / 16 + s1 % 2 * 16) / 16) 1 (by omega) (by omega)]
    omega
  have o2 : ((s2 / 16 + s1 % 2 * 16) * 16 ||| s2 % 16 * 2 / 2) % 256 = s2 := by
    rw [lor_eq_add _ _ 4 (by omega) (by omega)]; omega
  rw [o0, o1, o2]
  simp

theorem pack_two (s0 s1 : Nat) (h0 : s0 < 256) (h1 : s1 < 256) :
    pack [s0 / 8, s1 / 64 + s0 % 8 * 4, s1 / 2 % 32, s1 % 2 * 16] 4 = [s0, s1] := by
  simp only [pack, List.getD_cons_zero, List.getD_cons_succ]
  simp only [shr_eq, shl_eq, Nat.reducePow, true_or, or_true, if_true, List.append_assoc,
    List.singleton_append, List.cons_append, List.nil_append]
  have o0 : (s0 / 8 * 8 ||| (s1 / 64 + s0 % 8 * 4) / 4) % 256 = s0 := by
    rw [lor_eq_add _ _ 3 (by omega) (by omega)]; omega
  have o1 : ((s1 / 64 + s0 % 8 * 4) * 64 ||| s1 / 2 % 32 * 2 ||| s1 % 2 * 16 / 16) % 256
      = s1 := by
    rw [lor_eq_add ((s1 / 64 + s0 % 8 * 4) * 64) (s1 / 2 % 32 * 2) 6 (by omega) (by omega),
      lor_eq_add _ (s1 % 2 * 16 / 16) 1 (by omega) (by omega)]
    omega
  rw [o0, o1]
  simp

theorem pack_one (s0 : Nat) (h0 : s0 < 256) : pack [s0 / 8, s0 % 8 * 4] 2 = [s0] := by
  simp only [pack, List.getD_cons_zero, List.getD_cons_succ]
  simp only [shr_eq, shl_eq, Nat.reducePow, true_or, or_true, if_true, List.append_assoc,
    List.singleton_append, List.cons_append, List.nil_append]
  have o0 : (s0 / 8 * 8 ||| s0 % 8 * 4 / 4) % 256 = s0 := by
    rw [lor_eq_add _ _ 3 (by omega) (by omega)]; omega
  rw [o0]
  simp

end Base32

/-! ## Base32: the shape of an encoding -/

namespace Base32

theorem unpack_length (src : Bytes) : (unpack src).length = 8 := by
  simp [unpack]

theorem encodeChar_land_mem (b : Nat) : encodeChar (b &&& 31) ∈ encodeHex := by
  apply encodeChar_mem
  rw [land_0x1f]; omega

/-- Every character that a quantum is encoded with, before padding, is in
the alphabet. -/
theorem chars_mem (src : Bytes) :
    ∀ c ∈ (unpack src).map (fun b => encodeChar (b &&& 31)), c ∈ encodeHex := by
  intro c hc
  obtain ⟨b, -, rfl⟩ := List.mem_map.mp hc
  exact encodeChar_land_mem b

theorem chars_length (src : Bytes) :
    ((unpack src).map (fun b => encodeChar (b &&& 31))).length = 8 := by
  simp [unpack_length]

/-- The final, partial quantum: `keptChars` characters of the alphabet, then
padding up to 8. -/
theorem encodeQuantum_final (src : Bytes) (h : src.length < 5) :
    encodeQuantum src =
      ((unpack src).map (fun b => encodeChar (b &&& 31))).take (keptChars src.length) ++
        List.replicate (8 - keptChars src.length) 61 := by
  simp [encodeQuantum, h, padChar]

theorem encodeQuantum_full (src : Bytes) (h : 5 ≤ src.length) :
    encodeQuantum src = (unpack src).map (fun b => encodeChar (b &&& 31)) := by
  have : ¬ src.length < 5 := by omega
  simp [encodeQuantum, this]

theorem EncodeToString_final (src : Bytes) (h0 : 0 < src.length) (h : src.length < 5) :
    EncodeToString src = encodeQuantum src := by
  match src, h0, h with
  | [_], _, _ => rfl
  | [_, _], _, _ => rfl
  | [_, _, _], _, _ => rfl
  | [_, _, _, _], _, _ => rfl
  | _ :: _ :: _ :: _ :: _ :: _, _, h => simp at h; omega

theorem EncodeToString_full (s0 s1 s2 s3 s4 : Nat) (rest : Bytes) :
    EncodeToString (s0 :: s1 :: s2 :: s3 :: s4 :: rest) =
      (unpack (s0 :: s1 :: s2 :: s3 :: s4 :: rest)).map (fun b => encodeChar (b &&& 31)) ++
        EncodeToString rest := by
  rw [EncodeToString, encodeQuantum_full _ (by simp)]

/-- The shape of the encoding of a final, partial quantum. -/
theorem final_shape (src : Bytes) (h0 : 0 < src.length) (h : src.length < 5) : ∃ body k,
    EncodeToString src = body ++ List.replicate k 61 ∧ (∀ c ∈ body, c ∈ encodeHex) ∧
      body.length = (8 * src.length + 4) / 5 ∧ (body.length + k) % 8 = 0 ∧ k < 8 := by
  refine ⟨_, _, (EncodeToString_final src h0 h).trans (encodeQuantum_final src h), ?_, ?_, ?_, ?_⟩
  · intro c hc
    exact chars_mem src c (List.mem_of_mem_take hc)
  · rw [List.length_take, chars_length]
    unfold keptChars
    split_ifs <;> omega
  · rw [List.length_take, chars_length]
    unfold keptChars
    split_ifs <;> omega
  · unfold keptChars
    split_ifs <;> omega

/-- An encoding is a run of alphabet characters, `ceil(8 * len / 5)` of them,
followed by fewer than 8 padding characters that fill the last quantum. -/
theorem EncodeToString_shape : ∀ s : Bytes, ∃ body k,
    EncodeToString s = body ++ List.replicate k 61 ∧ (∀ c ∈ body, c ∈ encodeHex) ∧
      body.length = (8 * s.length + 4) / 5 ∧ (body.length + k) % 8 = 0 ∧ k < 8
  | [] => ⟨[], 0, by simp [EncodeToString]⟩
  | s0 :: s1 :: s2 :: s3 :: s4 :: rest => by
    obtain ⟨body, k, he, hm, hl, h8, hk⟩ := EncodeToString_shape rest
    refine ⟨(unpack (s0 :: s1 :: s2 :: s3 :: s4 :: rest)).map (fun b => encodeChar (b &&& 31)) ++
      body, k, ?_, ?_, ?_, ?_, hk⟩
    · rw [EncodeToString_full, he, List.append_assoc]
    · intro c hc
      rcases List.mem_append.mp hc with hc | hc
      · exact chars_mem _ c hc
      · exact hm c hc
    · rw [List.length_append, chars_length, hl]
      simp only [List.length_cons]
      omega
    · rw [List.length_append, chars_length]; omega
  | [s0] => final_shape [s0] (by simp) (by simp)
  | [s0, s1] => final_shape [s0, s1] (by simp) (by simp)
  | [s0, s1, s2] => final_shape [s0, s1, s2] (by simp) (by simp)
  | [s0, s1, s2, s3] => final_shape [s0, s1, s2, s3] (by simp) (by simp)

end Base32

/-! ## encodeKey -/

theorem indexOf_append_replicate (body : Bytes) (k : Nat) (h : (61 : Nat) ∉ body) :
    (body ++ List.replicate k 61).indexOf 61 = body.length := by
  rw [List.indexOf_append_of_not_mem h]
  cases k with
  | zero => simp
  | succ k => simp [List.replicate_succ]

/-- The function `encodeKey` keeps exactly the part of the encoding in front
of the padding. -/
theorem encodeKey_eq_body (s body : Bytes) (k : Nat)
    (he : Base32.EncodeToString s = body ++ List.replicate k 61) (h : (61 : Nat) ∉ body) :
    encodeKey s = body := by
  unfold encodeKey indexEq
  simp only [he, indexOf_append_replicate body k h, List.length_append, List.length_replicate]
  cases k with
  | zero => simp
  | succ k => simp

/-- C8. For every byte sequence `s`, `encodeKey s` is the padded base32
"extended hex" encoding of `s` with exactly its trailing `'='` padding
removed and nothing else: it contains no `'='`, every character is in the
alphabet `0123456789ABCDEFGHIJKLMNOPQRSTUV`, and its length is
`ceil(8 * len(s) / 5)`. -/
theorem encodeKey_spec (s : Bytes) :
    (∃ k, Base32.EncodeToString s = encodeKey s ++ List.replicate k 61) ∧
    (61 : Nat) ∉ encodeKey s ∧
    (∀ c ∈ encodeKey s, c ∈ ascii "0123456789ABCDEFGHIJKLMNOPQRSTUV") ∧
    (encodeKey s).length = (8 * s.length + 4) / 5 ∧
    5 * (encodeKey s).length < 8 * s.length + 5 ∧ 8 * s.length ≤ 5 * (encodeKey s).length := by
  obtain ⟨body, k, he, hm, hl, -, -⟩ := Base32.EncodeToString_shape s
  have hpad : (61 : Nat) ∉ body := fun h => Base32.pad_not_mem (hm 61 h)
  have hkey := encodeKey_eq_body s body k he hpad
  have halpha : ascii "0123456789ABCDEFGHIJKLMNOPQRSTUV" = Base32.encodeHex := by decide
  rw [hkey, halpha]
  exact ⟨⟨k, he⟩, hpad, hm, hl, by omega, by omega⟩

/-! ## Base32: decoding an encoding -/

namespace Base32

/-- Reading a character of the alphabet stores its block and moves on. -/
theorem readQuantum_step (olen k j v : Nat) (dbuf : List Nat) (src : Bytes) (hv : v < 32) :
    readQuantum olen (k + 1) j dbuf (encodeChar v :: src) =
      readQuantum olen k (j + 1) (dbuf ++ [v]) src := by
  have h1 : encodeChar v ≠ padChar := encodeChar_ne_pad v hv
  have h2 : decodeMap (encodeChar v) = v := decodeMap_encodeChar v hv
  have h3 : v ≠ 255 := by omega
  simp [readQuantum, h1, h2, h3]

/-- Reading the padding that closes a quantum of `j` characters. -/
theorem readQuantum_pad (olen k j : Nat) (dbuf : List Nat)
    (hj : j = 2 ∨ j = 4 ∨ j = 5 ∨ j = 7) :
    readQuantum olen (k + 1) j dbuf (List.replicate (8 - j) 61) =
      .ok ⟨dbuf, j, true, List.replicate (7 - j) 61⟩ := by
  rcases hj with rfl | rfl | rfl | rfl <;>
    simp [readQuantum, padChar, List.replicate, List.find?, List.range, List.range.loop]

theorem land31_of_lt (v : Nat) (h : v < 32) : v &&& 31 = v := by
  rw [land_0x1f, Nat.mod_eq_of_lt h]

/-- The decoding loop on a full quantum followed by `tail`. -/
theorem decodeLoop_full (olen fuel : Nat) (s0 s1 s2 s3 s4 : Nat) (rest tail : Bytes)
    (h0 : s0 < 256) (h1 : s1 < 256) (h2 : s2 < 256) (h3 : s3 < 256) (h4 : s4 < 256) :
    decodeLoop olen (fuel + 1)
        ((unpack (s0 :: s1 :: s2 :: s3 :: s4 :: rest)).map (fun b => encodeChar (b &&& 31)) ++ tail)
      = match decodeLoop olen fuel tail with
        | .error e => .error e
        | .ok out => .ok ([s0, s1, s2, s3, s4] ++ out) := by
  have v0 : s0 / 8 < 32 := by omega
  have v1 : s1 / 64 + s0 % 8 * 4 < 32 := by omega
  have v2 : s1 / 2 % 32 < 32 := by omega
  have v3 : s2 / 16 + s1 % 2 * 16 < 32 := by omega
  have v4 : s3 / 128 + s2 % 16 * 2 < 32 := by omega
  have v5 : s3 / 4 % 32 < 32 := by omega
  have v6 : s4 / 32 + s3 % 4 * 8 < 32 := by omega
  have v7 : s4 % 32 < 32 := by omega
  rw [unpack_five s0 s1 s2 s3 s4 rest h1 h2 h3 h4]
  simp only [List.map, land31_of_lt _ v0, land31_of_lt _ v1, land31_of_lt _ v2,
    land31_of_lt _ v3, land31_of_lt _ v4, land31_of_lt _ v5, land31_of_lt _ v6,
    land31_of_lt _ v7, List.cons_append, List.nil_append]
  rw [decodeLoop]
  simp only [List.length_cons, Nat.zero_lt_succ, if_true]
  rw [readQuantum_step _ _ _ _ _ _ v0, readQuantum_step _ _ _ _ _ _ v1,
    readQuantum_step _ _ _ _ _ _ v2, readQuantum_step _ _ _ _ _ _ v3,
    readQuantum_step _ _ _ _ _ _ v4, readQuantum_step _ _ _ _ _ _ v5,
    readQuantum_step _ _ _ _ _ _ v6, readQuantum_step _ _ _ _ _ _ v7]
  simp only [readQuantum, List.nil_append, List.cons_append, Bool.false_eq_true, if_false]
  rw [pack_five s0 s1 s2 s3 s4 h0 h1 h2 h3 h4]
  rfl

/-- The decoding loop on the encoding of a final, partial quantum. -/
theorem decodeLoop_final (olen fuel : Nat) (src : Bytes) (hb : IsBytes src)
    (h0 : 0 < src.length) (h5 : src.length < 5) :
    decodeLoop olen (fuel + 1) (encodeQuantum src) = .ok src := by
  rw [encodeQuantum_final src h5]
  match src, hb, h0, h5 with
  | [s0], hb, _, _ =>
    have b0 : s0 < 256 := hb s0 (by simp)
    have v0 : s0 / 8 < 32 := by omega
    have v1 : s0 % 8 * 4 < 32 := by omega
    have hk : keptChars [s0].length = 2 := rfl
    rw [unpack_one, hk]
    simp only [List.map, land31_of_lt _ v0, land31_of_lt _ v1, List.take, List.cons_append,
      List.nil_append]
    rw [decodeLoop]
    simp only [List.length_cons, Nat.zero_lt_succ, if_true]
    rw [readQuantum_step _ _ _ _ _ _ v0, readQuantum_step _ _ _ _ _ _ v1]
    have := readQuantum_pad olen 5 2 [s0 / 8, s0 % 8 * 4] (by simp)
    simp only [List.nil_append, List.cons_append, Nat.reduceAdd, Nat.reduceSub] at this ⊢
    rw [this]
    simp only [if_true]
    rw [pack_one s0 b0]
  | [s0, s1], hb, _, _ =>
    have b0 : s0 < 256 := hb s0 (by simp)
    have b1 : s1 < 256 := hb s1 (by simp)
    have v0 : s0 / 8 < 32 := by omega
    have v1 : s1 / 64 + s0 % 8 * 4 < 32 := by omega
    have v2 : s1 / 2 % 32 < 32 := by omega
    have v3 : s1 % 2 * 16 < 32 := by omega
    have hk : keptChars [s0, s1].length = 4 := rfl
    rw [unpack_two s0 s1 b1, hk]
    simp only [List.map, land31_of_lt _ v0, land31_of_lt _ v1, land31_of_lt _ v2,
      land31_of_lt _ v3, List.take, List.cons_append, List.nil_append]
    rw [decodeLoop]
    simp only [List.length_cons, Nat.zero_lt_succ, if_true]
    rw [readQuantum_step _ _ _ _ _ _ v0, readQuantum_step _ _ _ _ _ _ v1,
      readQuantum_step _ _ _ _ _ _ v2, readQuantum_step _ _ _ _ _ _ v3]
    have := readQuantum_pad olen 3 4 [s0 / 8, s1 / 64 + s0 % 8 * 4, s1 / 2 % 32, s1 % 2 * 16]
      (by simp)
    simp only [List.nil_append, List.cons_append, Nat.reduceAdd, Nat.reduceSub] at this ⊢
    rw [this]
    simp only [if_true]
    rw [pack_two s0 s1 b0 b1]
  | [s0, s1, s2], hb, _, _ =>
    have b0 : s0 < 256 := hb s0 (by simp)
    have b1 : s1 < 256 := hb s1 (by simp)
    have b2 : s2 < 256 := hb s2 (by simp)
    have v0 : s0 / 8 < 32 := by omega
    have v1 : s1 / 64 + s0 % 8 * 4 < 32 := by omega
    have v2 : s1 / 2 % 32 < 32 := by omega
    have v3 : s2 / 16 + s1 % 2 * 16 < 32 := by omega
    have v4 : s2 % 16 * 2 < 32 := by omega
    have hk : keptChars [s0, s1, s2].length = 5 := rfl
    rw [unpack_three s0 s1 s2 b1 b2, hk]
    simp only [List.map, land31_of_lt _ v0, land31_of_lt _ v1, land31_of_lt _ v2,
      land31_of_lt _ v3, land31_of_lt _ v4, List.take, List.cons_append, List.nil_append]
    rw [decodeLoop]
    simp only [List.length_cons, Nat.zero_lt_succ, if_true]
    rw [readQuantum_step _ _ _ _ _ _ v0, readQuantum_step _ _ _ _ _ _ v1,
      readQuantum_step _ _ _ _ _ _ v2, readQuantum_step _ _ _ _ _ _ v3,
      readQuantum_step _ _ _ _ _ _ v4]
    have := readQuantum_pad olen 2 5
      [s0 / 8, s1 / 64 + s0 % 8 * 4, s1 / 2 % 32, s2 / 16 + s1 % 2 * 16, s2 % 16 * 2] (by simp)
    simp only [List.nil_append, List.cons_append, Nat.reduceAdd, Nat.reduceSub] at this ⊢
    rw [this]
    simp only [if_true]
    rw [pack_three s0 s1 s2 b0 b1 b2]
  | [s0, s1, s2, s3], hb, _, _ =>
    have b0 : s0 < 256 := hb s0 (by simp)
    have b1 : s1 < 256 := hb s1 (by simp)
    have b2 : s2 < 256 := hb s2 (by simp)
    have b3 : s3 < 256 := hb s3 (by simp)
    have v0 : s0 / 8 < 32 := by omega
    have v1 : s1 / 64 + s0 % 8 * 4 < 32 := by omega
    have v2 : s1 / 2 % 32 < 32 := by omega
    have v3 : s2 / 16 + s1 % 2 * 16 < 32 := by omega
    have v4 : s3 / 128 + s2 % 16 * 2 < 32 := by omega
    have v5 : s3 / 4 % 32 < 32 := by omega
    have v6 : s3 % 4 * 8 < 32 := by omega
    have hk : keptChars [s0, s1, s2, s3].length = 7 := rfl
    rw [unpack_four s0 s1 s2 s3 b1 b2 b3, hk]
    simp only [List.map, land31_of_lt _ v0, land31_of_lt _ v1, land31_of_lt _ v2,
      land31_of_lt _ v3, land31_of_lt _ v4, land31_of_lt _ v5, land31_of_lt _ v6, List.take,
      List.cons_append, List.nil_append]
    rw [decodeLoop]
    simp only [List.length_cons, Nat.zero_lt_succ, if_true]
    rw [readQuantum_step _ _ _ _ _ _ v0, readQuantum_step _ _ _ _ _ _ v1,
      readQuantum_step _ _ _ _ _ _ v2, readQuantum_step _ _ _ _ _ _ v3,
      readQuantum_step _ _ _ _ _ _ v4, readQuantum_step _ _ _ _ _ _ v5,
      readQuantum_step _ _ _ _ _ _ v6]
    have := readQuantum_pad olen 0 7
      [s0 / 8, s1 / 64 + s0 % 8 * 4, s1 / 2 % 32, s2 / 16 + s1 % 2 * 16, s3 / 128 + s2 % 16 * 2,
        s3 / 4 % 32, s3 % 4 * 8] (by simp)
    simp only [List.nil_append, List.cons_append, Nat.reduceAdd, Nat.reduceSub] at this ⊢
    rw [this]
    simp only [if_true]
    rw [pack_four s0 s1 s2 s3 b0 b1 b2 b3]
  | _ :: _ :: _ :: _ :: _ :: _, _, _, h => simp at h; omega

end Base32

namespace Base32

/-- Decoding an encoding gives the encoded bytes back, whatever the error
offset base `olen`, once the fuel covers one round per quantum. -/
theorem decodeLoop_EncodeToString : ∀ s : Bytes, IsBytes s → ∀ olen fuel : Nat,
    (s.length + 4) / 5 ≤ fuel → decodeLoop olen fuel (EncodeToString s) = .ok s
  | [], _, olen, fuel, _ => by
    cases fuel <;> simp [EncodeToString, decodeLoop]
  | s0 :: s1 :: s2 :: s3 :: s4 :: rest, hb, olen, fuel, hf => by
    obtain ⟨f, rfl⟩ : ∃ f, fuel = f + 1 := ⟨fuel - 1, by simp at hf; omega⟩
    have hrest : IsBytes rest := fun b hb1 => hb b (by simp [hb1])
    have ih := decodeLoop_EncodeToString rest hrest olen f (by simp at hf; omega)
    rw [EncodeToString_full, decodeLoop_full olen f s0 s1 s2 s3 s4 rest _ (hb s0 (by simp))
      (hb s1 (by simp)) (hb s2 (by simp)) (hb s3 (by simp)) (hb s4 (by simp)), ih]
    rfl
  | [s0], hb, olen, fuel, hf => by
    obtain ⟨f, rfl⟩ : ∃ f, fuel = f + 1 := ⟨fuel - 1, by simp at hf; omega⟩
    rw [EncodeToString_final _ (by simp) (by simp), decodeLoop_final olen f _ hb (by simp) (by simp)]
  | [s0, s1], hb, olen, fuel, hf => by
    obtain ⟨f, rfl⟩ : ∃ f, fuel = f + 1 := ⟨fuel - 1, by simp at hf; omega⟩
    rw [EncodeToString_final _ (by simp) (by simp), decodeLoop_final olen f _ hb (by simp) (by simp)]
  | [s0, s1, s2], hb, olen, fuel, hf => by
    obtain ⟨f, rfl⟩ : ∃ f, fuel = f + 1 := ⟨fuel - 1, by simp at hf; omega⟩
    rw [EncodeToString_final _ (by simp) (by simp), decodeLoop_final olen f _ hb (by simp) (by simp)]
  | [s0, s1, s2, s3], hb, olen, fuel, hf => by
    obtain ⟨f, rfl⟩ : ∃ f, fuel = f + 1 := ⟨fuel - 1, by simp at hf; omega⟩
    rw [EncodeToString_final _ (by simp) (by simp), decodeLoop_final olen f _ hb (by simp) (by simp)]

theorem alphabet_not_newline : ∀ c ∈ encodeHex, c ≠ 13 ∧ c ≠ 10 := by decide

/-- An encoding holds no line break, so `stripNewlines` leaves it as it is. -/
theorem stripNewlines_EncodeToString (s : Bytes) :
    stripNewlines (EncodeToString s) = EncodeToString s := by
  obtain ⟨body, k, he, hm, -, -, -⟩ := EncodeToString_shape s
  unfold stripNewlines
  rw [List.filter_eq_self]
  intro c hc
  rw [he] at hc
  rcases List.mem_append.mp hc with hc | hc
  · have := alphabet_not_newline c (hm c hc)
    simp [this.1, this.2]
  · rw [List.eq_of_mem_replicate hc]; decide

/-- The library decoder inverts the library encoder. -/
theorem DecodeString_EncodeToString (s : Bytes) (hs : IsBytes s) :
    DecodeString (EncodeToString s) = .ok s := by
  obtain ⟨body, k, he, -, hl, -, -⟩ := EncodeToString_shape s
  unfold DecodeString
  simp only [stripNewlines_EncodeToString]
  apply decodeLoop_EncodeToString s hs
  rw [he, List.length_append, hl]
  omega

end Base32

/-- C1. For every byte sequence `s`, `decodeKey (encodeKey s)` succeeds and
returns exactly `s`. -/
theorem decodeKey_encodeKey (s : Bytes) (hs : IsBytes s) : decodeKey (encodeKey s) = .ok s := by
  obtain ⟨body, k, he, hm, hl, h8, hk⟩ := Base32.EncodeToString_shape s
  have hpad : (61 : Nat) ∉ body := fun h => Base32.pad_not_mem (hm 61 h)
  have hkey := encodeKey_eq_body s body k he hpad
  have hrepad : (if body.length % 8 ≠ 0 then body ++ List.replicate (8 - body.length % 8) 61
      else body) = Base32.EncodeToString s := by
    rw [he]
    by_cases h : body.length % 8 = 0
    · have hk0 : k = 0 := by omega
      simp [h, hk0]
    · have hk8 : 8 - body.length % 8 = k := by omega
      simp [h, hk8]
  unfold decodeKey
  simp only [hkey, hrepad]
  exact Base32.DecodeString_EncodeToString s hs

theorem decodeKey_encodeKey_witness :
    IsBytes (ascii "SHARED_KEYWORD_OVER_HERE") ∧
    encodeKey (ascii "SHARED_KEYWORD_OVER_HERE") = ascii "AD442KI58HFKMHAPAT7L4H2V9TB4AKIV912L4H8" ∧
    decodeKey (encodeKey (ascii "SHARED_KEYWORD_OVER_HERE")) = .ok (ascii "SHARED_KEYWORD_OVER_HERE") :=
  ⟨by decide, by decide, decodeKey_encodeKey (ascii "SHARED_KEYWORD_OVER_HERE") (by decide)⟩

/-! ## decodeKey on malformed text -/

namespace Base32

theorem decodeMap_ne_ff (c : Nat) (h : decodeMap c ≠ 0xFF) : c ∈ encodeHex := by
  unfold decodeMap at h
  by_cases hi : encodeHex.indexOf c < 32
  · exact List.indexOf_lt_length.mp hi
  · simp [hi] at h

/-- What a successful run of the inner loop says about the input it read:
either it filled the quantum with `k` characters of the alphabet, or it met
the closing padding, and then the whole input left is alphabet and padding. -/
theorem readQuantum_ok (olen : Nat) : ∀ (k j m : Nat) (dbuf : List Nat) (src : Bytes) (q : Quantum),
    j + k = 8 → src.length = k + 8 * m → readQuantum olen k j dbuf src = .ok q →
    (q.fin = false ∧ ∃ pre, src = pre ++ q.rest ∧ pre.length = k ∧ ∀ c ∈ pre, c ∈ encodeHex) ∨
    (q.fin = true ∧ ∀ c ∈ src, c ∈ encodeHex ∨ c = 61) := by
  intro k
  induction k with
  | zero =>
    intro j m dbuf src q _ _ h
    simp only [readQuantum, Except.ok.injEq] at h
    subst h
    exact Or.inl ⟨rfl, [], by simp⟩
  | succ k ih =>
    intro j m dbuf src q hj hlen h
    match src, hlen, h with
    | [], hlen, h => simp only [List.length_nil] at hlen; omega
    | c :: src, hlen, h =>
      simp only [List.length_cons] at hlen
      rw [readQuantum] at h
      by_cases hp : c = padChar ∧ 2 ≤ j ∧ src.length < 8
      · rw [if_pos hp] at h
        right
        by_cases h1 : src.length + j < 8 - 1
        · rw [if_pos h1] at h; exact absurd h (by simp)
        · rw [if_neg h1] at h
          cases hfind : List.find? (fun i => decide (i < src.length) && src.getD i 0 != padChar)
              (List.range (8 - 1 - j)) with
          | some i => rw [hfind] at h; exact absurd h (by simp)
          | none =>
            rw [hfind] at h
            by_cases h2 : j = 1 ∨ j = 3 ∨ j = 6
            · simp only [h2, if_true] at h; exact absurd h (by simp)
            · simp only [h2, if_false, Except.ok.injEq] at h
              subst h
              refine ⟨rfl, ?_⟩
              intro x hx
              rcases List.mem_cons.mp hx with rfl | hx
              · exact Or.inr hp.1
              · right
                obtain ⟨i, hi, rfl⟩ := List.getElem_of_mem hx
                have hall := List.find?_eq_none.mp hfind i (by simp; omega)
                simp only [hi, decide_True, Bool.true_and, bne_iff_ne, ne_eq, Decidable.not_not,
                  padChar] at hall
                rw [← hall]
                simp [List.getD_eq_getElem?_getD, List.getElem?_eq_getElem hi]
      · rw [if_neg hp] at h
        by_cases h1 : decodeMap c = 0xFF
        · rw [if_pos h1] at h; exact absurd h (by simp)
        rw [if_neg h1] at h
        have hc : c ∈ encodeHex := decodeMap_ne_ff c h1
        rcases ih (j + 1) m _ src q (by omega) (by omega) h with ⟨hf, pre, hpre, hl, hm⟩ | ⟨hf, hm⟩
        · left
          refine ⟨hf, c :: pre, by rw [hpre]; rfl, by simp [hl], ?_⟩
          intro x hx
          rcases List.mem_cons.mp hx with rfl | hx
          · exact hc
          · exact hm x hx
        · right
          refine ⟨hf, ?_⟩
          intro x hx
          rcases List.mem_cons.mp hx with rfl | hx
          · exact Or.inl hc
          · exact hm x hx

/-- On an input of whole quantums that holds a character which is neither in
the alphabet nor the padding character, the decoding loop fails. -/
theorem decodeLoop_bad (olen : Nat) : ∀ (n : Nat) (src : Bytes), src.length = 8 * n →
    (∃ c ∈ src, c ∉ encodeHex ∧ c ≠ 61) → ∀ fuel, n ≤ fuel →
    ∃ e, decodeLoop olen fuel src = .error e := by
  intro n
  induction n with
  | zero =>
    intro src hlen hbad
    obtain ⟨c, hc, -⟩ := hbad
    rw [List.length_eq_zero.mp hlen] at hc
    simp at hc
  | succ n ih =>
    intro src hlen hbad fuel hfuel
    obtain ⟨f, rfl⟩ : ∃ f, fuel = f + 1 := ⟨fuel - 1, by omega⟩
    rw [decodeLoop, if_pos (by omega)]
    cases hq : readQuantum olen 8 0 [] src with
    | error e => exact ⟨e, rfl⟩
    | ok q =>
      simp only []
      rcases readQuantum_ok olen 8 0 n [] src q rfl (by omega) hq with
        ⟨hf, pre, hpre, hl, hm⟩ | ⟨-, hm⟩
      · have hrest : q.rest.length = 8 * n := by
          have := congrArg List.length hpre
          rw [List.length_append] at this
          omega
        have hbad2 : ∃ c ∈ q.rest, c ∉ encodeHex ∧ c ≠ 61 := by
          obtain ⟨c, hc, hne, hnp⟩ := hbad
          rw [hpre] at hc
          rcases List.mem_append.mp hc with hc | hc
          · exact absurd (hm c hc) hne
          · exact ⟨c, hc, hne, hnp⟩
        obtain ⟨e, he⟩ := ih q.rest hrest hbad2 f (by omega)
        refine ⟨e, ?_⟩
        simp [hf, he]
      · obtain ⟨c, hc, hne, hnp⟩ := hbad
        rcases hm c hc with h | h
        · exact absurd h hne
        · exact absurd h hnp

end Base32

/-- C9, as amended.  For every input text that holds no line break (`'\r'`,
`'\n'`) and holds at least one character that is neither in the alphabet
`0123456789ABCDEFGHIJKLMNOPQRSTUV` nor the padding character `'='`,
`decodeKey` returns an error rather than a key. -/
theorem decodeKey_invalid_char (key : Bytes) (hnl : ∀ c ∈ key, c ≠ 13 ∧ c ≠ 10)
    (hbad : ∃ c ∈ key, c ∉ ascii "0123456789ABCDEFGHIJKLMNOPQRSTUV" ∧ c ≠ 61) :
    ∃ e, decodeKey key = .error e := by
  have halpha : ascii "0123456789ABCDEFGHIJKLMNOPQRSTUV" = Base32.encodeHex := by decide
  rw [halpha] at hbad
  unfold decodeKey Base32.DecodeString
  simp only []
  generalize hp : (if key.length % 8 ≠ 0 then key ++ List.replicate (8 - key.length % 8) 61
    else key) = padded
  have hsub : ∀ c ∈ key, c ∈ padded := by
    intro c hc
    rw [← hp]
    split_ifs
    · exact List.mem_append_left _ hc
    · exact hc
  have hmem : ∀ c ∈ padded, c ∈ key ∨ c = 61 := by
    intro c hc
    rw [← hp] at hc
    split_ifs at hc
    · rcases List.mem_append.mp hc with h | h
      · exact Or.inl h
      · exact Or.inr (List.eq_of_mem_replicate h)
    · exact Or.inl hc
  have hlen : padded.length = 8 * ((key.length + 7) / 8) := by
    rw [← hp]
    split_ifs with h
    · rw [List.length_append, List.length_replicate]; omega
    · omega
  have hstrip : Base32.stripNewlines padded = padded := by
    unfold Base32.stripNewlines
    rw [List.filter_eq_self]
    intro c hc
    rcases hmem c hc with h | h
    · have := hnl c h
      simp [this.1, this.2]
    · rw [h]; decide
  rw [hstrip]
  obtain ⟨c, hc, hne, hnp⟩ := hbad
  exact Base32.decodeLoop_bad _ _ padded hlen ⟨c, hsub c hc, hne, hnp⟩ _ (by omega)

theorem decodeKey_invalid_char_witness :
    (∀ c ∈ ascii "CPNMuOJ1E8", c ≠ 13 ∧ c ≠ 10) ∧
    (∃ c ∈ ascii "CPNMuOJ1E8", c ∉ ascii "0123456789ABCDEFGHIJKLMNOPQRSTUV" ∧ c ≠ 61) ∧
    decodeKey (ascii "CPNMuOJ1E8") = .error 4 ∧
    ∃ e, decodeKey (ascii "CPNMuOJ1E8") = .error e :=
  ⟨by decide, by decide, rfl,
    decodeKey_invalid_char (ascii "CPNMuOJ1E8") (by decide) (by decide)⟩

/-- C9 fails as stated.  A text of the alphabet followed by eight line breaks,
and a text that ends in padding characters, both hold a character outside
the alphabet, and `decodeKey` returns a key for each. -/
theorem decodeKey_invalid_char_counterexample :
    ((∃ c ∈ ascii "CPNMU" ++ List.replicate 8 10, c ∉ ascii "0123456789ABCDEFGHIJKLMNOPQRSTUV") ∧
      decodeKey (ascii "CPNMU" ++ List.replicate 8 10) = .ok (ascii "foo")) ∧
    ((∃ c ∈ ascii "CPNMU===", c ∉ ascii "0123456789ABCDEFGHIJKLMNOPQRSTUV") ∧
      decodeKey (ascii "CPNMU===") = .ok (ascii "foo")) ∧
    ((∃ c ∈ ascii "00======!" ++ List.replicate 7 10,
        c ∉ ascii "0123456789ABCDEFGHIJKLMNOPQRSTUV" ∧ c ≠ 61 ∧ c ≠ 13 ∧ c ≠ 10) ∧
      decodeKey (ascii "00======!" ++ List.replicate 7 10) = .ok [0]) :=
  ⟨⟨by decide, rfl⟩, ⟨by decide, rfl⟩, ⟨by decide, rfl⟩⟩

/-! ## generateProvisioningUrl -/

/-- C10 at an issuer that needs escaping.  The issuer `A B` is `A%20B` after
one application of `url.PathEscape`, but the URI returned by
`generateProvisioningUrl` holds `A%2520B`: `URL.String` escapes the already
escaped `Path` a second time, so the result does not start with
`otpauth://totp/A%20B:alice?`. -/
theorem generateProvisioningUrl_escapes_twice :
    Url.PathEscape (ascii "A B") = ascii "A%20B" ∧
    Url.PathEscape (ascii "alice") = ascii "alice" ∧
    (generateProvisioningUrl typeTotp (ascii "alice") (ascii "A B") 6
        (ascii "12345678901234567890") (some [])).map Prod.fst =
      some (ascii "otpauth://totp/A%2520B:alice?issuer=A+B&secret=64P36D1L6ORJGE9G64P36D1L6ORJGE9G") ∧
    ((generateProvisioningUrl typeTotp (ascii "alice") (ascii "A B") 6
        (ascii "12345678901234567890") (some [])).map
          (fun r => r.1.take (ascii "otpauth://totp/A%20B:alice?").length) ≠
      some (ascii "otpauth://totp/A%20B:alice?")) := by
  refine ⟨by decide, by decide, by decide, by decide⟩

/-! ## Fuel is never exhausted -/

/-- More fuel than the value does not change the digits written. -/
theorem fmtDigits_fuel (fuel : Nat) : ∀ (u : Nat) (acc : Bytes), u ≤ fuel →
    fmtDigits (fuel + 1) u acc = fmtDigits fuel u acc := by
  induction fuel with
  | zero =>
    intro u acc hu
    have : u = 0 := by omega
    subst this
    simp [fmtDigits]
  | succ fuel ih =>
    intro u acc hu
    have e : ∀ f, fmtDigits (f + 1) u acc =
        if u ≥ 10 then fmtDigits f (u / 10) ((48 + u - (u / 10) * 10) :: acc)
        else (48 + u) :: acc := fun _ => rfl
    rw [e (fuel + 1), e fuel]
    by_cases h10 : u ≥ 10
    · rw [if_pos h10, if_pos h10, ih (u / 10) _ (by omega)]
    · rw [if_neg h10, if_neg h10]

namespace Base32

/-- A quantum that does not end the input takes its `k` characters off it. -/
theorem readQuantum_rest (olen : Nat) : ∀ (k j : Nat) (dbuf : List Nat) (src : Bytes) (q : Quantum),
    readQuantum olen k j dbuf src = .ok q → q.fin = false → q.rest.length + k = src.length := by
  intro k
  induction k with
  | zero =>
    intro j dbuf src q h _
    simp only [readQuantum, Except.ok.injEq] at h
    subst h
    rfl
  | succ k ih =>
    intro j dbuf src q h hf
    match src, h with
    | [], h => simp [readQuantum] at h
    | c :: src, h =>
      rw [readQuantum] at h
      by_cases hp : c = padChar ∧ 2 ≤ j ∧ src.length < 8
      · rw [if_pos hp] at h
        by_cases h1 : src.length + j < 8 - 1
        · rw [if_pos h1] at h; exact absurd h (by simp)
        · rw [if_neg h1] at h
          cases hfind : List.find? (fun i => decide (i < src.length) && src.getD i 0 != padChar)
              (List.range (8 - 1 - j)) with
          | some i => rw [hfind] at h; exact absurd h (by simp)
          | none =>
            rw [hfind] at h
            by_cases h2 : j = 1 ∨ j = 3 ∨ j = 6
            · simp only [h2, if_true] at h; exact absurd h (by simp)
            · simp only [h2, if_false, Except.ok.injEq] at h
              subst h
              simp at hf
      · rw [if_neg hp] at h
        by_cases h1 : decodeMap c = 0xFF
        · rw [if_pos h1] at h; exact absurd h (by simp)
        rw [if_neg h1] at h
        have := ih (j + 1) _ src q h hf
        simp only [List.length_cons]
        omega

/-- Fuel of at least `len(src)` is never exhausted: more fuel gives the same
result. -/
theorem decodeLoop_fuel (olen : Nat) : ∀ (fuel : Nat) (src : Bytes), src.length ≤ fuel →
    decodeLoop olen (fuel + 1) src = decodeLoop olen fuel src := by
  intro fuel
  induction fuel with
  | zero =>
    intro src h
    have : src = [] := List.length_eq_zero.mp (by omega)
    subst this
    simp [decodeLoop]
  | succ fuel ih =>
    intro src h
    have e : ∀ f, decodeLoop olen (f + 1) src =
        if src.length > 0 then
          match readQuantum olen 8 0 [] src with
          | .error e => .error e
          | .ok q =>
            if q.fin then .ok (pack q.dbuf q.dlen)
            else
              match decodeLoop olen f q.rest with
              | .error e => .error e
              | .ok out => .ok (pack q.dbuf q.dlen ++ out)
        else .ok [] := fun _ => rfl
    rw [e (fuel + 1), e fuel]
    by_cases h0 : src.length > 0
    · rw [if_pos h0, if_pos h0]
      cases hq : readQuantum olen 8 0 [] src with
      | error e => rfl
      | ok q =>
        simp only []
        by_cases hf : q.fin = true
        · rw [if_pos hf, if_pos hf]
        · rw [if_neg hf, if_neg hf]
          have := readQuantum_rest olen 8 0 [] src q hq (by simpa using hf)
          rw [ih q.rest (by omega)]
    · rw [if_neg h0, if_neg h0]

end Base32

/-! ## adjustForSha1: idempotence and trailing zero bytes -/

/-- A key of at most 64 bytes is padded with zero bytes up to 64. -/
theorem adjustForSha1_pad (key : Bytes) (h : key.length ≤ 64) :
    adjustForSha1 key = key ++ List.replicate (64 - key.length) 0 := by
  unfold adjustForSha1
  simp only [Sha1.BlockSize]
  have h1 : ¬ key.length > 64 := by omega
  simp only [h1, if_false]
  by_cases h2 : key.length < 64
  · simp [h2]
  · have h3 : key.length = 64 := by omega
    simp [h3]

/-- A key of exactly 64 bytes is returned as it is. -/
theorem adjustForSha1_block (key : Bytes) (h : key.length = 64) : adjustForSha1 key = key := by
  rw [adjustForSha1_pad key (by omega), h]
  simp

/-- The result of `adjustForSha1` is one block long. -/
theorem adjustForSha1_block_length (key : Bytes) : (adjustForSha1 key).length = 64 := by
  by_cases h : key.length ≤ 64
  · rw [adjustForSha1_pad key h, List.length_append, List.length_replicate]; omega
  · unfold adjustForSha1
    simp only [Sha1.BlockSize]
    have h1 : key.length > 64 := by omega
    simp [h1, Sha1.Sum_length]

/-- C18. The function `adjustForSha1` is idempotent: for every key,
`adjustForSha1 (adjustForSha1 key) = adjustForSha1 key`; normalising a key
that is already one block (64 bytes) long is a no-op. -/
theorem adjustForSha1_idempotent (key : Bytes) :
    adjustForSha1 (adjustForSha1 key) = adjustForSha1 key ∧
    (∀ k : Bytes, k.length = 64 → adjustForSha1 k = k) :=
  ⟨adjustForSha1_block _ (adjustForSha1_block_length key), adjustForSha1_block⟩

/-- C20. Trailing zero bytes of a short secret are insignificant: for every
key `k` with `len(k) < 64`, `adjustForSha1 (k ++ [0x00]) = adjustForSha1 k`;
so `adjustForSha1` is not injective. -/
theorem adjustForSha1_trailing_zero (k : Bytes) (h : k.length < 64) :
    adjustForSha1 (k ++ [0x00]) = adjustForSha1 k ∧
    k ++ [0x00] ≠ k ∧
    ¬ Function.Injective adjustForSha1 := by
  have h1 : adjustForSha1 (k ++ [0x00]) = adjustForSha1 k := by
    rw [adjustForSha1_pad k (by omega), adjustForSha1_pad (k ++ [0x00]) (by simp; omega)]
    have : 64 - k.length = (64 - (k ++ [0x00]).length) + 1 := by simp; omega
    rw [this, List.replicate_succ]
    simp
  have h2 : k ++ [0x00] ≠ k := by
    intro h
    have := congrArg List.length h
    simp at this
  exact ⟨h1, h2, fun hinj => h2 (hinj h1)⟩

theorem adjustForSha1_trailing_zero_witness :
    (ascii "secret").length < 64 ∧
    adjustForSha1 (ascii "secret" ++ [0x00]) = adjustForSha1 (ascii "secret") ∧
    ascii "secret" ++ [0x00] ≠ ascii "secret" ∧
    ¬ Function.Injective adjustForSha1 :=
  ⟨by decide, adjustForSha1_trailing_zero (ascii "secret") (by decide)⟩

/-! ## Ten-digit codes -/

/-- The value of step 3 is below `2 ^ 31`, whatever the four entries read. -/
theorem masked_lt (g0 g1 g2 g3 : Nat) :
    ((g0 &&& 0x7f) <<< 24) ||| ((g1 &&& 0xff) <<< 16) ||| ((g2 &&& 0xff) <<< 8) ||| (g3 &&& 0xff)
      < 2 ^ 31 := by
  rw [land_0x7f, land_0xff, land_0xff, land_0xff]
  simp only [Nat.shiftLeft_eq]
  rw [lor_eq_add (g0 % 128 * 2 ^ 24) (g1 % 256 * 2 ^ 16) 24 (by omega) (by omega),
    lor_eq_add _ (g2 % 256 * 2 ^ 8) 16 (by omega) (by omega),
    lor_eq_add _ (g3 % 256) 8 (by omega) (by omega)]
  omega

/-- Fuel beyond the value is not used. -/
theorem fmtDigits_fuel_ge (u : Nat) (acc : Bytes) : ∀ n : Nat,
    fmtDigits (u + n) u acc = fmtDigits u u acc := by
  intro n
  induction n with
  | zero => rfl
  | succ n ih => rw [← Nat.add_assoc, fmtDigits_fuel (u + n) u acc (by omega), ih]

/-- The digits are written in front of what is already there. -/
theorem fmtDigits_acc (fuel : Nat) : ∀ (u : Nat) (acc : Bytes),
    fmtDigits fuel u acc = fmtDigits fuel u [] ++ acc := by
  induction fuel with
  | zero => intro u acc; simp [fmtDigits]
  | succ fuel ih =>
    intro u acc
    have e : ∀ a : Bytes, fmtDigits (fuel + 1) u a =
        if u ≥ 10 then fmtDigits fuel (u / 10) ((48 + u - (u / 10) * 10) :: a)
        else (48 + u) :: a := fun _ => rfl
    rw [e acc, e []]
    by_cases h10 : u ≥ 10
    · rw [if_pos h10, if_pos h10, ih _ (_ :: acc), ih _ [_]]
      simp
    · rw [if_neg h10, if_neg h10]
      simp

/-- The digits of a value of at least 10: those of its tenth, then its last digit. -/
theorem fmtDigits_step (u : Nat) (h : 10 ≤ u) :
    fmtDigits u u [] = fmtDigits (u / 10) (u / 10) [] ++ [48 + u % 10] := by
  obtain ⟨f, rfl⟩ : ∃ f, u = f + 1 := ⟨u - 1, by omega⟩
  have e : fmtDigits (f + 1) (f + 1) [] =
      if f + 1 ≥ 10 then fmtDigits f ((f + 1) / 10) [(48 + (f + 1) - ((f + 1) / 10) * 10)]
      else [48 + (f + 1)] := rfl
  rw [e, if_pos h, fmtDigits_acc]
  obtain ⟨n, hn⟩ : ∃ n, f = (f + 1) / 10 + n := ⟨f - (f + 1) / 10, by omega⟩
  have e2 : fmtDigits f ((f + 1) / 10) [] = fmtDigits ((f + 1) / 10) ((f + 1) / 10) [] := by
    have := fmtDigits_fuel_ge ((f + 1) / 10) [] n
    rw [← hn] at this
    exact this
  rw [e2]
  congr 2
  omega

theorem fmtDigits_small (u : Nat) (h : u < 10) : fmtDigits u u [] = [48 + u] := by
  cases u with
  | zero => rfl
  | succ f =>
    have e : fmtDigits (f + 1) (f + 1) [] =
        if f + 1 ≥ 10 then fmtDigits f ((f + 1) / 10) [(48 + (f + 1) - ((f + 1) / 10) * 10)]
        else [48 + (f + 1)] := rfl
    rw [e, if_neg (by omega)]

/-- One more column of width: the rendering of the tenth, then the last digit. -/
theorem fmtZeroPad_succ (d u : Nat) (hd : 1 ≤ d) (hu : u < 10 ^ (d + 1)) :
    fmtZeroPad (d + 1) u = fmtZeroPad d (u / 10) ++ [48 + u % 10] := by
  by_cases h10 : 10 ≤ u
  · have hdiv : u / 10 < 10 ^ d := by
      rw [Nat.div_lt_iff_lt_mul (by norm_num)]
      rw [pow_succ] at hu; exact hu
    have hlen := fmtDigits_length (u / 10) (u / 10) d [] hd hdiv
    simp only [List.length_nil, Nat.add_zero] at hlen
    unfold fmtZeroPad
    simp only [fmtDigits_step u h10, List.length_append, List.length_singleton]
    have : d + 1 - ((fmtDigits (u / 10) (u / 10) []).length + 1) =
        d - (fmtDigits (u / 10) (u / 10) []).length := by omega
    rw [this, List.append_assoc]
  · have hu10 : u < 10 := by omega
    have h0 : u / 10 = 0 := by omega
    have hmod : u % 10 = u := by omega
    obtain ⟨e, rfl⟩ : ∃ e, d = e + 1 := ⟨d - 1, by omega⟩
    unfold fmtZeroPad
    simp only [fmtDigits_small u hu10, h0, fmtDigits_small 0 (by omega), hmod,
      List.length_singleton, Nat.add_sub_cancel, Nat.add_zero]
    rw [List.replicate_succ' e 48]

/-- The first character of a rendering of width `d` is the digit of weight
`10 ^ (d - 1)`. -/
theorem fmtZeroPad_head (d : Nat) : ∀ u : Nat, u < 10 ^ (d + 1) →
    (fmtZeroPad (d + 1) u).head? = some (48 + u / 10 ^ d) := by
  induction d with
  | zero =>
    intro u hu
    have hu10 : u < 10 := by simpa using hu
    unfold fmtZeroPad
    simp [fmtDigits_small u hu10]
  | succ d ih =>
    intro u hu
    have hdiv : u / 10 < 10 ^ (d + 1) := by
      rw [Nat.div_lt_iff_lt_mul (by norm_num)]
      rw [pow_succ] at hu; exact hu
    rw [fmtZeroPad_succ (d + 1) u (by omega) hu]
    have := ih (u / 10) hdiv
    rw [List.head?_append_of_ne_nil _ (by intro h; rw [h] at this; simp at this), this,
      Nat.div_div_eq_div_mul, pow_succ, Nat.mul_comm]

/-- C19. With a digit count of 10 the modulus `10^10` exceeds every 31-bit
truncated value: for every digest the 10-digit code is the truncated value
itself, is below 2147483648, and its rendering starts with `'0'`, `'1'` or
`'2'`. -/
theorem otpValue_ten_digits (digest : Bytes) (hlen : 20 ≤ digest.length) :
    ∃ value rest first, maskedOTPBinary digest = some value ∧ otpValue digest 10 = some value ∧
      value < 2147483648 ∧ value < 10 ^ 10 ∧
      fmtZeroPad 10 value = first :: rest ∧ rest.length = 9 ∧
      (first = 48 ∨ first = 49 ∨ first = 50) ∧ first ∈ ascii "012" := by
  obtain ⟨last, g0, g1, g2, g3, -, -, -, -, -, -, -, hv⟩ := truncation_reads digest hlen
  have hlt := masked_lt g0 g1 g2 g3
  generalize ((g0 &&& 0x7f) <<< 24) ||| ((g1 &&& 0xff) <<< 16) ||| ((g2 &&& 0xff) <<< 8) |||
    (g3 &&& 0xff) = value at hv hlt
  have h10 : value < 10 ^ 10 := by omega
  have hhead := fmtZeroPad_head 9 value h10
  have hspec := (fmtZeroPad_spec 10 value (by omega) h10).1
  match hf : fmtZeroPad 10 value, hhead, hspec with
  | [], hhead, _ => simp [hf] at hhead
  | first :: rest, hhead, hspec =>
    simp only [List.head?_cons, Option.some.injEq] at hhead
    have hq : value / 10 ^ 9 ≤ 2 := by omega
    have h012 : ascii "012" = [48, 49, 50] := by decide
    refine ⟨value, rest, first, hv, ?_, by omega, h10, hf, by simpa using hspec, by omega, ?_⟩
    · have hmod : value % 10 ^ 10 = value := Nat.mod_eq_of_lt h10
      simp only [otpValue, hv, pow10, Option.map_some', hmod]
    · rw [h012]; simp; omega

theorem otpValue_ten_digits_witness :
    20 ≤ exampleDigest.length ∧
    fmtZeroPad 10 1357872921 = ascii "1357872921" ∧
    ∃ value rest first, maskedOTPBinary exampleDigest = some value ∧
      otpValue exampleDigest 10 = some value ∧
      value < 2147483648 ∧ value < 10 ^ 10 ∧
      fmtZeroPad 10 value = first :: rest ∧ rest.length = 9 ∧
      (first = 48 ∨ first = 49 ∨ first = 50) ∧ first ∈ ascii "012" :=
  ⟨by decide, by decide, otpValue_ten_digits exampleDigest (by decide)⟩

/-! ## TOTP counter -/

theorem wrapInt64_of_range (x : Int) (hlo : -2 ^ 63 ≤ x) (hhi : x < 2 ^ 63) : wrapInt64 x = x := by
  unfold wrapInt64
  omega

/-- Truncated division by a positive number moves toward zero and keeps the sign. -/
theorem tdiv_between (a b : Int) (hb : 0 < b) :
    (0 ≤ a → 0 ≤ a.tdiv b ∧ a.tdiv b ≤ a) ∧ (a ≤ 0 → a ≤ a.tdiv b ∧ a.tdiv b ≤ 0) := by
  have key : ∀ x : Int, 0 ≤ x → 0 ≤ x.tdiv b ∧ x.tdiv b ≤ x := by
    intro x hx
    rw [Int.tdiv_eq_ediv hx (le_of_lt hb)]
    have h1 : 0 ≤ x / b := Int.ediv_nonneg hx (le_of_lt hb)
    have h2 := Int.ediv_add_emod x b
    have h3 := Int.emod_nonneg x (ne_of_gt hb)
    refine ⟨h1, ?_⟩
    nlinarith
  refine ⟨key a, ?_⟩
  intro ha
  have := key (-a) (by omega)
  rw [Int.neg_tdiv] at this
  omega

/-- Truncated division by a positive number is monotone in the dividend. -/
theorem tdiv_mono (a a' b : Int) (hb : 0 < b) (h : a ≤ a') : a.tdiv b ≤ a'.tdiv b := by
  rcases le_or_lt 0 a with ha | ha
  · rw [Int.tdiv_eq_ediv ha (le_of_lt hb), Int.tdiv_eq_ediv (by omega) (le_of_lt hb)]
    exact Int.ediv_le_ediv hb h
  · rcases le_or_lt 0 a' with ha' | ha'
    · have h1 := ((tdiv_between a b hb).2 (by omega)).2
      have h2 := ((tdiv_between a' b hb).1 ha').1
      omega
    · have e1 : a.tdiv b = -((-a) / b) := by
        rw [← Int.tdiv_eq_ediv (by omega) (le_of_lt hb), Int.neg_tdiv]; omega
      have e2 : a'.tdiv b = -((-a') / b) := by
        rw [← Int.tdiv_eq_ediv (by omega) (le_of_lt hb), Int.neg_tdiv]; omega
      rw [e1, e2]
      have := Int.ediv_le_ediv hb (show -a' ≤ -a by omega)
      omega

/-- Without overflow the counter is the truncated quotient. -/
theorem counter_of_range (t T0 TX : Int) (hTX : 0 < TX) (hlo : -2 ^ 63 ≤ t - T0)
    (hhi : t - T0 < 2 ^ 63) : counter t T0 TX = some ((t - T0).tdiv TX) := by
  unfold counter
  rw [if_neg (ne_of_gt hTX), wrapInt64_of_range (t - T0) hlo hhi]
  have hb := tdiv_between (t - T0) TX hTX
  rw [wrapInt64_of_range]
  · rcases le_or_lt 0 (t - T0) with h | h
    · have := hb.1 h; omega
    · have := hb.2 (by omega); omega
  · rcases le_or_lt 0 (t - T0) with h | h
    · have := hb.1 h; omega
    · have := hb.2 (by omega); omega

/-- C15, as amended.  For every time `t` and epoch offset `T0` whose
difference `t - T0` fits a signed 64-bit integer, and every period `TX > 0`,
the counter is the quotient `(t - T0) / TX` truncated toward zero; for
`t >= T0` it is the unique `k >= 0` with `T0 + k*TX <= t < T0 + (k+1)*TX`, so
all times of one period window give the same counter; and the counter is
non-decreasing in `t`. -/
theorem counter_spec (t T0 TX : Int) (hTX : 0 < TX) (hlo : -2 ^ 63 ≤ t - T0)
    (hhi : t - T0 < 2 ^ 63) :
    counter t T0 TX = some ((t - T0).tdiv TX) ∧
    (t < T0 → counter t T0 TX = some (-((T0 - t) / TX))) ∧
    (T0 ≤ t → ∀ k : Int, counter t T0 TX = some k ↔
      (0 ≤ k ∧ T0 + k * TX ≤ t ∧ t < T0 + (k + 1) * TX)) ∧
    (∀ t' : Int, t ≤ t' → t' - T0 < 2 ^ 63 →
      ∃ c c', counter t T0 TX = some c ∧ counter t' T0 TX = some c' ∧ c ≤ c') := by
  have hc := counter_of_range t T0 TX hTX hlo hhi
  refine ⟨hc, ?_, ?_, ?_⟩
  · intro hlt
    rw [hc]
    have : t - T0 = -(T0 - t) := by omega
    rw [this, Int.neg_tdiv, Int.tdiv_eq_ediv (by omega) (le_of_lt hTX)]
  · intro hge k
    rw [hc, Int.tdiv_eq_ediv (by omega) (le_of_lt hTX)]
    simp only [Option.some.injEq]
    have h1 := Int.ediv_add_emod (t - T0) TX
    have h2 := Int.emod_nonneg (t - T0) (ne_of_gt hTX)
    have h3 := Int.emod_lt_of_pos (t - T0) hTX
    constructor
    · intro hk
      subst hk
      refine ⟨Int.ediv_nonneg (by omega) (le_of_lt hTX), ?_, ?_⟩ <;> nlinarith
    · rintro ⟨-, hk1, hk2⟩
      have e1 : k ≤ (t - T0) / TX := (Int.le_ediv_iff_mul_le hTX).mpr (by linarith)
      have e2 : (t - T0) / TX < k + 1 := (Int.ediv_lt_iff_lt_mul hTX).mpr (by linarith)
      omega
  · intro t' hle hhi'
    exact ⟨_, _, hc, counter_of_range t' T0 TX hTX (by omega) hhi',
      tdiv_mono _ _ TX hTX (by omega)⟩

theorem counter_spec_witness :
    (0 : Int) < 30 ∧ (-2 ^ 63 : Int) ≤ 1762214400 - 0 ∧ (1762214400 - 0 : Int) < 2 ^ 63 ∧
    counter 1762214400 0 30 = some 58740480 ∧
    counter 1762214429 0 30 = some 58740480 ∧
    counter 1762214430 0 30 = some 58740481 ∧
    counter (-59) 0 30 = some (-1) ∧
    counter 1762214400 0 30 = some ((1762214400 - 0 : Int).tdiv 30) :=
  ⟨by decide, by decide, by decide, by decide, by decide, by decide, by decide,
    (counter_spec 1762214400 0 30 (by decide) (by decide) (by decide)).1⟩

/-- C15 fails as stated.  At `t = 2^63 - 1` and `T0 = -1` the subtraction
`t - T0` overflows: the counter is negative although `t >= T0`, and it is not
the truncated quotient of `t - T0` by `TX`. -/
theorem counter_overflow_counterexample :
    (-1 : Int) ≤ 9223372036854775807 ∧ (0 : Int) < 30 ∧
    counter 9223372036854775807 (-1) 30 = some (-307445734561825860) ∧
    (9223372036854775807 - (-1) : Int).tdiv 30 = 307445734561825860 ∧
    counter 9223372036854775807 (-1) 30 ≠ some ((9223372036854775807 - (-1) : Int).tdiv 30) ∧
    ¬ (∃ k : Int, counter 9223372036854775807 (-1) 30 = some k ∧ 0 ≤ k) := by
  refine ⟨by decide, by decide, by decide, by decide, by decide, ?_⟩
  rintro ⟨k, hk, h0⟩
  have e : counter 9223372036854775807 (-1) 30 = some (-307445734561825860) := by decide
  rw [e] at hk
  simp only [Option.some.injEq] at hk
  omega

/-! ## decodeKey and the length of the text -/

namespace Base32

theorem alphabet_encodeChar : ∀ c ∈ encodeHex, ∃ v, v < 32 ∧ c = encodeChar v := by decide

theorem decodeMap_pad : decodeMap 61 = 0xFF := by decide

/-- The decoding loop on eight characters of the alphabet followed by `tail`. -/
theorem decodeLoop_quantum (olen fuel : Nat) (c0 c1 c2 c3 c4 c5 c6 c7 : Nat) (tail : Bytes)
    (h0 : c0 ∈ encodeHex) (h1 : c1 ∈ encodeHex) (h2 : c2 ∈ encodeHex) (h3 : c3 ∈ encodeHex)
    (h4 : c4 ∈ encodeHex) (h5 : c5 ∈ encodeHex) (h6 : c6 ∈ encodeHex) (h7 : c7 ∈ encodeHex) :
    ∃ out, out.length = 5 ∧
      decodeLoop olen (fuel + 1) (c0 :: c1 :: c2 :: c3 :: c4 :: c5 :: c6 :: c7 :: tail)
        = match decodeLoop olen fuel tail with
          | .error e => .error e
          | .ok rest => .ok (out ++ rest) := by
  obtain ⟨v0, hv0, rfl⟩ := alphabet_encodeChar c0 h0
  obtain ⟨v1, hv1, rfl⟩ := alphabet_encodeChar c1 h1
  obtain ⟨v2, hv2, rfl⟩ := alphabet_encodeChar c2 h2
  obtain ⟨v3, hv3, rfl⟩ := alphabet_encodeChar c3 h3
  obtain ⟨v4, hv4, rfl⟩ := alphabet_encodeChar c4 h4
  obtain ⟨v5, hv5, rfl⟩ := alphabet_encodeChar c5 h5
  obtain ⟨v6, hv6, rfl⟩ := alphabet_encodeChar c6 h6
  obtain ⟨v7, hv7, rfl⟩ := alphabet_encodeChar c7 h7
  refine ⟨pack [v0, v1, v2, v3, v4, v5, v6, v7] 8, by simp [pack], ?_⟩
  rw [decodeLoop]
  simp only [List.length_cons, Nat.zero_lt_succ, if_true]
  rw [readQuantum_step _ _ _ _ _ _ hv0, readQuantum_step _ _ _ _ _ _ hv1,
    readQuantum_step _ _ _ _ _ _ hv2, readQuantum_step _ _ _ _ _ _ hv3,
    readQuantum_step _ _ _ _ _ _ hv4, readQuantum_step _ _ _ _ _ _ hv5,
    readQuantum_step _ _ _ _ _ _ hv6, readQuantum_step _ _ _ _ _ _ hv7]
  simp only [readQuantum, List.nil_append, List.cons_append, Bool.false_eq_true, if_false]

/-- Padding that closes a quantum after 1, 3 or 6 characters is rejected. -/
theorem readQuantum_pad_bad (olen k j : Nat) (dbuf : List Nat) (hj : j = 1 ∨ j = 3 ∨ j = 6) :
    readQuantum olen (k + 1) j dbuf (List.replicate (8 - j) 61) =
      .error ((olen : Int) - ((7 - j : Nat) : Int) - 1) := by
  rcases hj with rfl | rfl | rfl
  · simp [readQuantum, padChar, List.replicate, decodeMap_pad]
  · simp [readQuantum, padChar, List.replicate, List.find?, List.range, List.range.loop]
  · simp [readQuantum, padChar, List.replicate, List.find?, List.range, List.range.loop]

/-- The decoding loop on a last quantum of `r` characters of the alphabet,
padded to 8: a key for `r` in 2, 4, 5, 7, an error for `r` in 1, 3, 6. -/
theorem decodeLoop_last (olen fuel : Nat) (text : Bytes) (ha : ∀ c ∈ text, c ∈ encodeHex)
    (h0 : 0 < text.length) (h8 : text.length < 8) :
    ((text.length = 2 ∨ text.length = 4 ∨ text.length = 5 ∨ text.length = 7) →
      ∃ out, decodeLoop olen (fuel + 1) (text ++ List.replicate (8 - text.length) 61) = .ok out) ∧
    ((text.length = 1 ∨ text.length = 3 ∨ text.length = 6) →
      ∃ e, decodeLoop olen (fuel + 1) (text ++ List.replicate (8 - text.length) 61) = .error e) := by
  have hu : ∀ src : Bytes, decodeLoop olen (fuel + 1) src =
      if src.length > 0 then
        match readQuantum olen 8 0 [] src with
        | .error e => .error e
        | .ok q =>
          if q.fin then .ok (pack q.dbuf q.dlen)
          else
            match decodeLoop olen fuel q.rest with
            | .error e => .error e
            | .ok out => .ok (pack q.dbuf q.dlen ++ out)
      else .ok [] := fun _ => rfl
  match text, ha, h0, h8 with
  | [c0], ha, _, _ =>
    obtain ⟨v0, hv0, e0⟩ := alphabet_encodeChar c0 (ha c0 (by simp))
    subst e0
    refine ⟨fun h => by simp at h, fun _ => ⟨(olen : Int) - ((7 - 1 : Nat) : Int) - 1, ?_⟩⟩
    simp only [List.length_cons, List.length_nil, Nat.reduceAdd, Nat.reduceSub,
      List.cons_append, List.nil_append]
    have := readQuantum_pad_bad olen 6 1 [v0] (by simp)
    rw [hu, if_pos (by simp), readQuantum_step _ _ _ _ _ _ hv0]
    simp only [List.nil_append, List.cons_append, Nat.reduceAdd, Nat.reduceSub] at this ⊢
    rw [this]
  | [c0, c1], ha, _, _ =>
    obtain ⟨v0, hv0, e0⟩ := alphabet_encodeChar c0 (ha c0 (by simp))
    obtain ⟨v1, hv1, e1⟩ := alphabet_encodeChar c1 (ha c1 (by simp))
    subst e0 e1
    refine ⟨fun _ => ⟨pack [v0, v1] 2, ?_⟩, fun h => by simp at h⟩
    simp only [List.length_cons, List.length_nil, Nat.reduceAdd, Nat.reduceSub,
      List.cons_append, List.nil_append]
    rw [hu, if_pos (by simp), readQuantum_step _ _ _ _ _ _ hv0, readQuantum_step _ _ _ _ _ _ hv1]
    have := readQuantum_pad olen 5 2 [v0, v1] (by simp)
    simp only [List.nil_append, List.cons_append, Nat.reduceAdd, Nat.reduceSub] at this ⊢
    rw [this]
    rfl
  | [c0, c1, c2], ha, _, _ =>
    obtain ⟨v0, hv0, e0⟩ := alphabet_encodeChar c0 (ha c0 (by simp))
    obtain ⟨v1, hv1, e1⟩ := alphabet_encodeChar c1 (ha c1 (by simp))
    obtain ⟨v2, hv2, e2⟩ := alphabet_encodeChar c2 (ha c2 (by simp))
    subst e0 e1 e2
    refine ⟨fun h => by simp at h, fun _ => ⟨(olen : Int) - ((7 - 3 : Nat) : Int) - 1, ?_⟩⟩
    simp only [List.length_cons, List.length_nil, Nat.reduceAdd, Nat.reduceSub,
      List.cons_append, List.nil_append]
    have := readQuantum_pad_bad olen 4 3 [v0, v1, v2] (by simp)
    rw [hu, if_pos (by simp), readQuantum_step _ _ _ _ _ _ hv0, readQuantum_step _ _ _ _ _ _ hv1, readQuantum_step _ _ _ _ _ _ hv2]
    simp only [List.nil_append, List.cons_append, Nat.reduceAdd, Nat.reduceSub] at this ⊢
    rw [this]
  | [c0, c1, c2, c3], ha, _, _ =>
    obtain ⟨v0, hv0, e0⟩ := alphabet_encodeChar c0 (ha c0 (by simp))
    obtain ⟨v1, hv1, e1⟩ := alphabet_encodeChar c1 (ha c1 (by simp))
    obtain ⟨v2, hv2, e2⟩ := alphabet_encodeChar c2 (ha c2 (by simp))
    obtain ⟨v3, hv3, e3⟩ := alphabet_encodeChar c3 (ha c3 (by simp))
    subst e0 e1 e2 e3
    refine ⟨fun _ => ⟨pack [v0, v1, v2, v3] 4, ?_⟩, fun h => by simp at h⟩
    simp only [List.length_cons, List.length_nil, Nat.reduceAdd, Nat.reduceSub,
      List.cons_append, List.nil_append]
    rw [hu, if_pos (by simp), readQuantum_step _ _ _ _ _ _ hv0, readQuantum_step _ _ _ _ _ _ hv1, readQuantum_step _ _ _ _ _ _ hv2, readQuantum_step _ _ _ _ _ _ hv3]
    have := readQuantum_pad olen 3 4 [v0, v1, v2, v3] (by simp)
    simp only [List.nil_append, List.cons_append, Nat.reduceAdd, Nat.reduceSub] at this ⊢
    rw [this]
    rfl
  | [c0, c1, c2, c3, c4], ha, _, _ =>
    obtain ⟨v0, hv0, e0⟩ := alphabet_encodeChar c0 (ha c0 (by simp))
    obtain ⟨v1, hv1, e1⟩ := alphabet_encodeChar c1 (ha c1 (by simp))
    obtain ⟨v2, hv2, e2⟩ := alphabet_encodeChar c2 (ha c2 (by simp))
    obtain ⟨v3, hv3, e3⟩ := alphabet_encodeChar c3 (ha c3 (by simp))
    obtain ⟨v4, hv4, e4⟩ := alphabet_encodeChar c4 (ha c4 (by simp))
    subst e0 e1 e2 e3 e4
    refine ⟨fun _ => ⟨pack [v0, v1, v2, v3, v4] 5, ?_⟩, fun h => by simp at h⟩
    simp only [List.length_cons, List.length_nil, Nat.reduceAdd, Nat.reduceSub,
      List.cons_append, List.nil_append]
    rw [hu, if_pos (by simp), readQuantum_step _ _ _ _ _ _ hv0, readQuantum_step _ _ _ _ _ _ hv1, readQuantum_step _ _ _ _ _ _ hv2, readQuantum_step _ _ _ _ _ _ hv3, readQuantum_step _ _ _ _ _ _ hv4]
    have := readQuantum_pad olen 2 5 [v0, v1, v2, v3, v4] (by simp)
    simp only [List.nil_append, List.cons_append, Nat.reduceAdd, Nat.reduceSub] at this ⊢
    rw [this]
    rfl
  | [c0, c1, c2, c3, c4, c5], ha, _, _ =>
    obtain ⟨v0, hv0, e0⟩ := alphabet_encodeChar c0 (ha c0 (by simp))
    obtain ⟨v1, hv1, e1⟩ := alphabet_encodeChar c1 (ha c1 (by simp))
    obtain ⟨v2, hv2, e2⟩ := alphabet_encodeChar c2 (ha c2 (by simp))
    obtain ⟨v3, hv3, e3⟩ := alphabet_encodeChar c3 (ha c3 (by simp))
    obtain ⟨v4, hv4, e4⟩ := alphabet_encodeChar c4 (ha c4 (by simp))
    obtain ⟨v5, hv5, e5⟩ := alphabet_encodeChar c5 (ha c5 (by simp))
    subst e0 e1 e2 e3 e4 e5
    refine ⟨fun h => by simp at h, fun _ => ⟨(olen : Int) - ((7 - 6 : Nat) : Int) - 1, ?_⟩⟩
    simp only [List.length_cons, List.length_nil, Nat.reduceAdd, Nat.reduceSub,
      List.cons_append, List.nil_append]
    have := readQuantum_pad_bad olen 1 6 [v0, v1, v2, v3, v4, v5] (by simp)
    rw [hu, if_pos (by simp), readQuantum_step _ _ _ _ _ _ hv0, readQuantum_step _ _ _ _ _ _ hv1, readQuantum_step _ _ _ _ _ _ hv2, readQuantum_step _ _ _ _ _ _ hv3, readQuantum_step _ _ _ _ _ _ hv4, readQuantum_step _ _ _ _ _ _ hv5]
    simp only [List.nil_append, List.cons_append, Nat.reduceAdd, Nat.reduceSub] at this ⊢
    rw [this]
  | [c0, c1, c2, c3, c4, c5, c6], ha, _, _ =>
    obtain ⟨v0, hv0, e0⟩ := alphabet_encodeChar c0 (ha c0 (by simp))
    obtain ⟨v1, hv1, e1⟩ := alphabet_encodeChar c1 (ha c1 (by simp))
    obtain ⟨v2, hv2, e2⟩ := alphabet_encodeChar c2 (ha c2 (by simp))
    obtain ⟨v3, hv3, e3⟩ := alphabet_encodeChar c3 (ha c3 (by simp))
    obtain ⟨v4, hv4, e4⟩ := alphabet_encodeChar c4 (ha c4 (by simp))
    obtain ⟨v5, hv5, e5⟩ := alphabet_encodeChar c5 (ha c5 (by simp))
    obtain ⟨v6, hv6, e6⟩ := alphabet_encodeChar c6 (ha c6 (by simp))
    subst e0 e1 e2 e3 e4 e5 e6
    refine ⟨fun _ => ⟨pack [v0, v1, v2, v3, v4, v5, v6] 7, ?_⟩, fun h => by simp at h⟩
    simp only [List.length_cons, List.length_nil, Nat.reduceAdd, Nat.reduceSub,
      List.cons_append, List.nil_append]
    rw [hu, if_pos (by simp), readQuantum_step _ _ _ _ _ _ hv0, readQuantum_step _ _ _ _ _ _ hv1, readQuantum_step _ _ _ _ _ _ hv2, readQuantum_step _ _ _ _ _ _ hv3, readQuantum_step _ _ _ _ _ _ hv4, readQuantum_step _ _ _ _ _ _ hv5, readQuantum_step _ _ _ _ _ _ hv6]
    have := readQuantum_pad olen 0 7 [v0, v1, v2, v3, v4, v5, v6] (by simp)
    simp only [List.nil_append, List.cons_append, Nat.reduceAdd, Nat.reduceSub] at this ⊢
    rw [this]
    rfl
  | _ :: _ :: _ :: _ :: _ :: _ :: _ :: _ :: _, _, _, h => simp at h; omega

end Base32

namespace Base32

/-- The decoding loop on a text of the alphabet with its padding restored:
the outcome depends on the length of the text modulo 8 alone. -/
theorem decodeLoop_alphabet (olen : Nat) : ∀ (m : Nat) (text : Bytes) (fuel : Nat),
    (∀ c ∈ text, c ∈ encodeHex) → text.length / 8 = m → m + 1 ≤ fuel →
    ((text.length % 8 = 0 ∨ text.length % 8 = 2 ∨ text.length % 8 = 4 ∨ text.length % 8 = 5 ∨
        text.length % 8 = 7) →
      ∃ out, decodeLoop olen fuel
        (if text.length % 8 ≠ 0 then text ++ List.replicate (8 - text.length % 8) 61 else text)
          = .ok out) ∧
    ((text.length % 8 = 1 ∨ text.length % 8 = 3 ∨ text.length % 8 = 6) →
      ∃ e, decodeLoop olen fuel
        (if text.length % 8 ≠ 0 then text ++ List.replicate (8 - text.length % 8) 61 else text)
          = .error e) := by
  intro m
  induction m with
  | zero =>
    intro text fuel ha hm hf
    obtain ⟨f, rfl⟩ : ∃ f, fuel = f + 1 := ⟨fuel - 1, by omega⟩
    have h8 : text.length < 8 := by omega
    have hmod : text.length % 8 = text.length := Nat.mod_eq_of_lt h8
    rw [hmod]
    by_cases h0 : text.length = 0
    · have : text = [] := List.length_eq_zero.mp h0
      subst this
      exact ⟨fun _ => ⟨[], by simp [decodeLoop]⟩, fun h => by simp at h⟩
    · rw [if_pos h0]
      have := decodeLoop_last olen f text ha (by omega) h8
      exact ⟨fun h => this.1 (by omega), this.2⟩
  | succ m ih =>
    intro text fuel ha hm hf
    obtain ⟨f, rfl⟩ : ∃ f, fuel = f + 1 := ⟨fuel - 1, by omega⟩
    match text, ha, hm with
    | c0 :: c1 :: c2 :: c3 :: c4 :: c5 :: c6 :: c7 :: rest, ha, hm =>
      have hlen : (c0 :: c1 :: c2 :: c3 :: c4 :: c5 :: c6 :: c7 :: rest).length = rest.length + 8 := by
        simp
      have hmod : (rest.length + 8) % 8 = rest.length % 8 := by omega
      have har : ∀ c ∈ rest, c ∈ encodeHex := fun c hc => ha c (by simp [hc])
      have hih := ih rest f har (by rw [hlen] at hm; omega) (by omega)
      obtain ⟨out, -, hq⟩ := decodeLoop_quantum olen f c0 c1 c2 c3 c4 c5 c6 c7
        (if rest.length % 8 ≠ 0 then rest ++ List.replicate (8 - rest.length % 8) 61 else rest)
        (ha c0 (by simp)) (ha c1 (by simp)) (ha c2 (by simp)) (ha c3 (by simp))
        (ha c4 (by simp)) (ha c5 (by simp)) (ha c6 (by simp)) (ha c7 (by simp))
      have hpad : (if (rest.length + 8) % 8 ≠ 0 then
            (c0 :: c1 :: c2 :: c3 :: c4 :: c5 :: c6 :: c7 :: rest) ++
              List.replicate (8 - (rest.length + 8) % 8) 61
          else c0 :: c1 :: c2 :: c3 :: c4 :: c5 :: c6 :: c7 :: rest) =
          c0 :: c1 :: c2 :: c3 :: c4 :: c5 :: c6 :: c7 ::
            (if rest.length % 8 ≠ 0 then rest ++ List.replicate (8 - rest.length % 8) 61
              else rest) := by
        rw [hmod]
        split_ifs <;> simp
      rw [hlen, hpad, hq, hmod]
      constructor
      · intro h
        obtain ⟨o, ho⟩ := hih.1 h
        exact ⟨out ++ o, by rw [ho]⟩
      · intro h
        obtain ⟨e, he⟩ := hih.2 h
        exact ⟨e, by rw [he]⟩
    | [], _, hm => simp only [List.length_cons, List.length_nil] at hm; omega
    | [_], _, hm => simp only [List.length_cons, List.length_nil] at hm; omega
    | [_, _], _, hm => simp only [List.length_cons, List.length_nil] at hm; omega
    | [_, _, _], _, hm => simp only [List.length_cons, List.length_nil] at hm; omega
    | [_, _, _, _], _, hm => simp only [List.length_cons, List.length_nil] at hm; omega
    | [_, _, _, _, _], _, hm => simp only [List.length_cons, List.length_nil] at hm; omega
    | [_, _, _, _, _, _], _, hm => simp only [List.length_cons, List.length_nil] at hm; omega
    | [_, _, _, _, _, _, _], _, hm => simp only [List.length_cons, List.length_nil] at hm; omega

end Base32

/-- C16. For every text consisting only of characters of the extended-hex
alphabet, `decodeKey` returns an error when the length of the text modulo 8
is 1, 3 or 6, and returns a key when it is 0, 2, 4, 5 or 7. -/
theorem decodeKey_length (text : Bytes)
    (ha : ∀ c ∈ text, c ∈ ascii "0123456789ABCDEFGHIJKLMNOPQRSTUV") :
    ((text.length % 8 = 1 ∨ text.length % 8 = 3 ∨ text.length % 8 = 6) →
      ∃ e, decodeKey text = .error e) ∧
    ((text.length % 8 = 0 ∨ text.length % 8 = 2 ∨ text.length % 8 = 4 ∨ text.length % 8 = 5 ∨
        text.length % 8 = 7) →
      ∃ key, decodeKey text = .ok key) := by
  have halpha : ascii "0123456789ABCDEFGHIJKLMNOPQRSTUV" = Base32.encodeHex := by decide
  rw [halpha] at ha
  unfold decodeKey Base32.DecodeString
  simp only []
  have hstrip : Base32.stripNewlines
      (if text.length % 8 ≠ 0 then text ++ List.replicate (8 - text.length % 8) 61 else text) =
      (if text.length % 8 ≠ 0 then text ++ List.replicate (8 - text.length % 8) 61 else text) := by
    unfold Base32.stripNewlines
    rw [List.filter_eq_self]
    intro c hc
    have hc2 : c ∈ text ∨ c = 61 := by
      split_ifs at hc
      · rcases List.mem_append.mp hc with h | h
        · exact Or.inl h
        · exact Or.inr (List.eq_of_mem_replicate h)
      · exact Or.inl hc
    rcases hc2 with h | h
    · have := Base32.alphabet_not_newline c (ha c h)
      simp [this.1, this.2]
    · rw [h]; decide
  rw [hstrip]
  by_cases h0 : text.length = 0
  · have : text = [] := List.length_eq_zero.mp h0
    subst this
    exact ⟨fun h => by simp at h, fun _ => ⟨[], rfl⟩⟩
  have hlen : text.length / 8 + 1 ≤
      (if text.length % 8 ≠ 0 then text ++ List.replicate (8 - text.length % 8) 61
        else text).length := by
    split_ifs with h
    · rw [List.length_append, List.length_replicate]; omega
    · omega
  have := Base32.decodeLoop_alphabet
    (if text.length % 8 ≠ 0 then text ++ List.replicate (8 - text.length % 8) 61
      else text).length (text.length / 8) text _ ha rfl hlen
  exact ⟨this.2, this.1⟩

theorem decodeKey_length_witness :
    (∀ c ∈ ascii "CPNMUOJ1E8", c ∈ ascii "0123456789ABCDEFGHIJKLMNOPQRSTUV") ∧
    decodeKey (ascii "CPNMUOJ1E8") = .ok (ascii "foobar") ∧
    decodeKey (ascii "CPNMUOJ1E") = .error 9 ∧
    decodeKey (ascii "C") = .error 1 ∧
    decodeKey (ascii "CPNMUO") = .error 6 ∧
    decodeKey (ascii "CPNMUOG") = .ok (ascii "foob") ∧
    decodeKey (ascii "") = .ok [] ∧
    (((ascii "CPNMUOJ1E8").length % 8 = 1 ∨ (ascii "CPNMUOJ1E8").length % 8 = 3 ∨
        (ascii "CPNMUOJ1E8").length % 8 = 6) →
      ∃ e, decodeKey (ascii "CPNMUOJ1E8") = .error e) ∧
    (((ascii "CPNMUOJ1E8").length % 8 = 0 ∨ (ascii "CPNMUOJ1E8").length % 8 = 2 ∨
        (ascii "CPNMUOJ1E8").length % 8 = 4 ∨ (ascii "CPNMUOJ1E8").length % 8 = 5 ∨
        (ascii "CPNMUOJ1E8").length % 8 = 7) →
      ∃ key, decodeKey (ascii "CPNMUOJ1E8") = .ok key) :=
  ⟨by decide, rfl, rfl, rfl, rfl, rfl, rfl, decodeKey_length (ascii "CPNMUOJ1E8") (by decide)⟩

/-! ## net/url: escaping -/

namespace Url

/-- A byte that `shouldEscape` rejects in a query component and that is not
a space is copied by `escape`. -/
theorem escape_cons (c : Nat) (s : Bytes) (mode : Encoding) :
    escape (c :: s) mode =
      (if c = 32 ∧ mode = .encodeQueryComponent then [43]
        else if shouldEscape c mode then
          [37, upperhex.getD (c >>> 4) 0, upperhex.getD (c &&& 15) 0]
        else [c]) ++ escape s mode := by
  simp [escape]

/-- Letters and digits are never escaped. -/
theorem shouldEscape_alnum (c : Nat) (mode : Encoding)
    (h : (97 ≤ c ∧ c ≤ 122) ∨ (65 ≤ c ∧ c ≤ 90) ∨ (48 ≤ c ∧ c ≤ 57)) :
    shouldEscape c mode = false := by
  simp [shouldEscape, h]

/-- A text of letters, digits and `-` is its own escaped form. -/
theorem escape_plain (mode : Encoding) : ∀ s : Bytes,
    (∀ c ∈ s, (97 ≤ c ∧ c ≤ 122) ∨ (65 ≤ c ∧ c ≤ 90) ∨ (48 ≤ c ∧ c ≤ 57) ∨ c = 45) →
    escape s mode = s
  | [], _ => rfl
  | c :: s, h => by
    have hc := h c (by simp)
    have hs : shouldEscape c mode = false := by
      rcases hc with h1 | h1 | h1 | h1
      · exact shouldEscape_alnum c mode (Or.inl h1)
      · exact shouldEscape_alnum c mode (Or.inr (Or.inl h1))
      · exact shouldEscape_alnum c mode (Or.inr (Or.inr h1))
      · subst h1; cases mode <;> decide
    have h32 : c ≠ 32 := by omega
    rw [escape_cons, escape_plain mode s (fun x hx => h x (by simp [hx]))]
    simp [hs, h32]

end Url

theorem encodeKey_plain (key : Bytes) :
    ∀ c ∈ encodeKey key, (97 ≤ c ∧ c ≤ 122) ∨ (65 ≤ c ∧ c ≤ 90) ∨ (48 ≤ c ∧ c ≤ 57) ∨ c = 45 := by
  obtain ⟨body, k, he, hm, -, -, -⟩ := Base32.EncodeToString_shape key
  have hpad : (61 : Nat) ∉ body := fun h => Base32.pad_not_mem (hm 61 h)
  rw [encodeKey_eq_body key body k he hpad]
  intro c hc
  have hall : ∀ c ∈ Base32.encodeHex, (97 ≤ c ∧ c ≤ 122) ∨ (65 ≤ c ∧ c ≤ 90) ∨
      (48 ≤ c ∧ c ≤ 57) ∨ c = 45 := by decide
  exact hall c (hm c hc)

/-- The secret is written into the query as it is. -/
theorem QueryEscape_encodeKey (key : Bytes) : Url.QueryEscape (encodeKey key) = encodeKey key :=
  Url.escape_plain _ _ (encodeKey_plain key)

/-- C11, as amended.  For otpType `totp`, accountName `alice@example.com`,
issuer `ExampleCo`, digits 6, any secret and extra parameters
`{period: "30"}`, `generateProvisioningUrl` returns the URI with scheme
`otpauth`, host `totp` and path `ExampleCo:alice@example.com`, in which the
`'@'` of the account name is not percent-encoded, followed by the query
`issuer=ExampleCo&period=30&secret=<encodeKey(secret)>`. -/
theorem generateProvisioningUrl_alice (key : Bytes) :
    generateProvisioningUrl typeTotp (ascii "alice@example.com") (ascii "ExampleCo") 6 key
        (some [(periodKey, [ascii "30"])]) =
      some (ascii "otpauth://totp/ExampleCo:alice@example.com?issuer=ExampleCo&period=30&secret="
          ++ encodeKey key,
        [(periodKey, [ascii "30"]), (secretKey, [encodeKey key]), (issuerKey, [ascii "ExampleCo"])]) := by
  have henc : ∀ x : Bytes, Url.Values.Encode
      [(periodKey, [ascii "30"]), (secretKey, [x]), (issuerKey, [ascii "ExampleCo"])] =
      ascii "issuer=ExampleCo&period=30&secret=" ++ Url.QueryEscape x := by
    intro x
    have hp : Url.Values.Encode
        [(periodKey, [ascii "30"]), (secretKey, [x]), (issuerKey, [ascii "ExampleCo"])] =
        List.intercalate [38]
          [ascii "issuer=ExampleCo", ascii "period=30", ascii "secret=" ++ Url.QueryEscape x] := rfl
    rw [hp]
    simp only [List.intercalate, List.intersperse, List.flatten_cons, List.flatten_nil,
      List.append_nil]
    rfl
  have hmain : ∀ q : Bytes, generateProvisioningUrl typeTotp (ascii "alice@example.com")
      (ascii "ExampleCo") 6 key (some [(periodKey, [ascii "30"])]) =
      some ((Url.URL.mk otpAuthSheme typeTotp
          (Url.PathEscape (ascii "ExampleCo") ++ ascii ":" ++ Url.PathEscape (ascii "alice@example.com"))
          (Url.Values.Encode [(periodKey, [ascii "30"]), (secretKey, [encodeKey key]),
            (issuerKey, [ascii "ExampleCo"])])).String,
        [(periodKey, [ascii "30"]), (secretKey, [encodeKey key]), (issuerKey, [ascii "ExampleCo"])]) :=
    fun _ => rfl
  rw [hmain [], henc, QueryEscape_encodeKey]
  rfl

/-- C11 fails as stated.  The function `url.PathEscape` leaves `'@'` as it
is, so the returned URI holds `alice@example.com`, not
`alice%40example.com`, and no `'%'` at all. -/
theorem generateProvisioningUrl_alice_counterexample :
    Url.PathEscape (ascii "alice@example.com") = ascii "alice@example.com" ∧
    Url.PathEscape (ascii "alice@example.com") ≠ ascii "alice%40example.com" ∧
    (generateProvisioningUrl typeTotp (ascii "alice@example.com") (ascii "ExampleCo") 6
        (ascii "12345678901234567890") (some [(periodKey, [ascii "30"])])).map Prod.fst =
      some (ascii ("otpauth://totp/ExampleCo:alice@example.com" ++
        "?issuer=ExampleCo&period=30&secret=64P36D1L6ORJGE9G64P36D1L6ORJGE9G")) ∧
    (generateProvisioningUrl typeTotp (ascii "alice@example.com") (ascii "ExampleCo") 6
        (ascii "12345678901234567890") (some [(periodKey, [ascii "30"])])).map
          (fun r => r.1.take (ascii "otpauth://totp/ExampleCo:alice%40example.com").length) ≠
      some (ascii "otpauth://totp/ExampleCo:alice%40example.com") := by
  refine ⟨by decide, by decide, by decide, by decide⟩

/-! ## net/url: the map of query parameters -/

namespace Url

theorem Values.keys_Add (v : Values) (k x : Bytes) :
    Values.keys (Values.Add v k x) = if k ∈ Values.keys v then Values.keys v
      else Values.keys v ++ [k] := by
  unfold Values.Add Values.keys
  have hany : (v.any (fun e => decide (e.1 = k)) = true) ↔ k ∈ v.map (fun e => e.1) := by
    simp only [List.any_eq_true, decide_eq_true_eq, List.mem_map]
  by_cases h : k ∈ v.map (fun e => e.1)
  · rw [if_pos (hany.mpr h), if_pos h, List.map_map]
    apply List.map_congr_left
    intro e _
    simp only [Function.comp]
    split_ifs <;> rfl
  · rw [if_neg (fun h' => h (hany.mp h')), if_neg h]
    simp

theorem Values.mem_keys_Add (v : Values) (k x k' : Bytes) :
    k' ∈ Values.keys (Values.Add v k x) ↔ k' ∈ Values.keys v ∨ k' = k := by
  rw [Values.keys_Add]
  split_ifs with h
  · constructor
    · exact Or.inl
    · rintro (h1 | rfl)
      · exact h1
      · exact h
  · simp

theorem Values.nodup_Add (v : Values) (k x : Bytes) (h : (Values.keys v).Nodup) :
    (Values.keys (Values.Add v k x)).Nodup := by
  rw [Values.keys_Add]
  split_ifs with hk
  · exact h
  · exact List.Nodup.append h (List.nodup_singleton k) (by simpa using hk)

theorem Values.lookup_nil (k : Bytes) : Values.lookup [] k = [] := rfl

theorem Values.lookup_cons (e : Bytes × List Bytes) (v : Values) (k : Bytes) :
    Values.lookup (e :: v) k = if e.1 = k then e.2 else Values.lookup v k := by
  unfold Values.lookup
  by_cases h : e.1 = k
  · simp [List.find?, h]
  · simp [List.find?, h]

theorem Values.lookup_of_not_mem : ∀ (v : Values) (k : Bytes), k ∉ Values.keys v →
    Values.lookup v k = []
  | [], _, _ => rfl
  | e :: v, k, h => by
    have h1 : e.1 ≠ k := fun he => h (by simp [Values.keys, he])
    have h2 : k ∉ Values.keys v := fun hk => h (by
      simp only [Values.keys, List.map_cons, List.mem_cons]; exact Or.inr hk)
    rw [Values.lookup_cons, if_neg h1, Values.lookup_of_not_mem v k h2]

theorem Values.lookup_append_new (v : Values) (k x k' : Bytes) (h : k ∉ Values.keys v) :
    Values.lookup (v ++ [(k, [x])]) k' = if k' = k then [x] else Values.lookup v k' := by
  induction v with
  | nil =>
    simp only [List.nil_append, Values.lookup_cons, Values.lookup_nil]
    by_cases hk : k = k'
    · simp [hk]
    · have : ¬ k' = k := fun h' => hk h'.symm
      simp [hk, this]
  | cons e v ih =>
    have h1 : e.1 ≠ k := fun he => h (by simp [Values.keys, he])
    have h2 : k ∉ Values.keys v := fun hk => h (by
      simp only [Values.keys, List.map_cons, List.mem_cons]; exact Or.inr hk)
    rw [List.cons_append, Values.lookup_cons, Values.lookup_cons, ih h2]
    by_cases he : e.1 = k'
    · have : ¬ k' = k := fun h' => h1 (he.trans h')
      simp [he, this]
    · simp [he]

theorem Values.lookup_map_other (k x k' : Bytes) (hk : k' ≠ k) : ∀ v : Values,
    Values.lookup (v.map (fun e => if e.1 = k then (e.1, e.2 ++ [x]) else e)) k' =
      Values.lookup v k'
  | [] => rfl
  | e :: v => by
    rw [List.map_cons, Values.lookup_cons, Values.lookup_cons, Values.lookup_map_other k x k' hk v]
    by_cases he : e.1 = k
    · have h1 : ¬ k = k' := fun h' => hk h'.symm
      simp [he, h1]
    · simp [he]

theorem Values.lookup_map_same (k x : Bytes) : ∀ v : Values, k ∈ Values.keys v →
    Values.lookup (v.map (fun e => if e.1 = k then (e.1, e.2 ++ [x]) else e)) k =
      Values.lookup v k ++ [x]
  | [], h => by simp [Values.keys] at h
  | e :: v, h => by
    rw [List.map_cons, Values.lookup_cons, Values.lookup_cons]
    by_cases he : e.1 = k
    · simp [he]
    · have hv : k ∈ Values.keys v := by
        simp only [Values.keys, List.map_cons, List.mem_cons] at h
        rcases h with h | h
        · exact absurd h.symm he
        · exact h
      simp [he, Values.lookup_map_same k x v hv]

/-- The values under a key after `Add`: the new value comes last under its
key, every other key keeps its values. -/
theorem Values.lookup_Add (v : Values) (k x k' : Bytes) :
    Values.lookup (Values.Add v k x) k' =
      if k' = k then Values.lookup v k ++ [x] else Values.lookup v k' := by
  have hany : (v.any (fun e => decide (e.1 = k)) = true) ↔ k ∈ Values.keys v := by
    simp only [Values.keys, List.any_eq_true, decide_eq_true_eq, List.mem_map]
  unfold Values.Add
  by_cases h : k ∈ Values.keys v
  · rw [if_pos (hany.mpr h)]
    by_cases hk : k' = k
    · subst hk
      rw [if_pos rfl, Values.lookup_map_same k' x v h]
    · rw [if_neg hk, Values.lookup_map_other k x k' hk v]
  · rw [if_neg (fun h' => h (hany.mp h')), Values.lookup_append_new v k x k' h,
      Values.lookup_of_not_mem v k h]
    simp

end Url
/-! ## net/url: the order of the keys -/

namespace Url

theorem strLt_irrefl : ∀ a : Bytes, strLt a a = false
  | [] => rfl
  | x :: a => by simp [strLt, strLt_irrefl a]

theorem strLt_asymm : ∀ a b : Bytes, strLt a b = true → strLt b a = false
  | [], [], h => by simp [strLt] at h
  | [], _ :: _, _ => rfl
  | _ :: _, [], h => by simp [strLt] at h
  | x :: a, y :: b, h => by
    simp only [strLt] at h ⊢
    by_cases h1 : x < y
    · have h2 : ¬ y < x := by omega
      simp [h1, h2]
    · by_cases h2 : y < x
      · simp [h1, h2] at h
      · simp only [h1, h2, if_false] at h ⊢
        exact strLt_asymm a b h

theorem strLt_connex : ∀ a b : Bytes, strLt a b = false → strLt b a = false → a = b
  | [], [], _, _ => rfl
  | [], _ :: _, h, _ => by simp [strLt] at h
  | _ :: _, [], _, h => by simp [strLt] at h
  | x :: a, y :: b, h, h' => by
    simp only [strLt] at h h'
    by_cases h1 : x < y
    · simp [h1] at h
    · by_cases h2 : y < x
      · simp [h2] at h'
      · simp only [h1, h2, if_false] at h h'
        have : x = y := by omega
        rw [this, strLt_connex a b h h']

theorem strLt_le_trans : ∀ a b c : Bytes, strLt b a = false → strLt c b = false →
    strLt c a = false
  | [], _, [], _, _ => rfl
  | [], _, _ :: _, _, _ => rfl
  | _ :: _, [], _, h, _ => by simp [strLt] at h
  | _ :: _, _ :: _, [], _, h => by simp [strLt] at h
  | x :: a, y :: b, z :: c, h, h' => by
    simp only [strLt] at h h' ⊢
    by_cases h1 : y < x
    · simp [h1] at h
    · by_cases h2 : z < y
      · simp [h2] at h'
      · by_cases h3 : x < y
        · have h4 : ¬ z < x := by omega
          have h5 : x < z := by omega
          simp [h4, h5]
        · by_cases h6 : y < z
          · have h4 : ¬ z < x := by omega
            have h5 : x < z := by omega
            simp [h4, h5]
          · have hxy : x = y := by omega
            have hyz : y = z := by omega
            subst hxy hyz
            simp only [h1, if_false] at h h' ⊢
            exact strLt_le_trans a b c h h'

theorem insertKey_eq (k : Bytes) : ∀ l : List Bytes,
    insertKey k l = List.orderedInsert (fun a b => strLt b a = false) k l
  | [] => rfl
  | x :: l => by
    simp only [insertKey, List.orderedInsert, insertKey_eq k l]
    by_cases h : strLt x k = true
    · simp [h]
    · simp [h]

theorem sortKeys_eq : ∀ l : List Bytes,
    sortKeys l = List.insertionSort (fun a b => strLt b a = false) l
  | [] => rfl
  | x :: l => by
    have : sortKeys (x :: l) = insertKey x (sortKeys l) := rfl
    rw [this, sortKeys_eq l, insertKey_eq, List.insertionSort]

theorem sortKeys_perm (l : List Bytes) : (sortKeys l).Perm l := by
  rw [sortKeys_eq]
  exact List.perm_insertionSort _ l

theorem mem_sortKeys (l : List Bytes) (k : Bytes) : k ∈ sortKeys l ↔ k ∈ l :=
  (sortKeys_perm l).mem_iff

/-- The sorted keys are in ascending order. -/
theorem sortKeys_sorted (l : List Bytes) :
    (sortKeys l).Pairwise (fun a b => strLt b a = false) := by
  rw [sortKeys_eq]
  have htot : IsTotal Bytes (fun a b => strLt b a = false) :=
    ⟨fun a b => by
      by_cases h : strLt b a = true
      · exact Or.inr (strLt_asymm b a h)
      · exact Or.inl (by simpa using h)⟩
  have htr : IsTrans Bytes (fun a b => strLt b a = false) :=
    ⟨fun a b c h h' => strLt_le_trans a b c h h'⟩
  exact @List.sorted_insertionSort _ (fun a b => strLt b a = false) _ htot htr l

/-- Distinct keys come out in strictly ascending order. -/
theorem sortKeys_strict (l : List Bytes) (h : l.Nodup) :
    (sortKeys l).Pairwise (fun a b => strLt a b = true) := by
  have hnd : (sortKeys l).Nodup := (sortKeys_perm l).nodup_iff.mpr h
  have hs := sortKeys_sorted l
  have := List.Pairwise.and hs hnd
  refine this.imp ?_
  intro a b hab
  by_contra hlt
  exact hab.2 (strLt_connex a b (by simpa using hlt) hab.1)

/-- Two lists of the same keys are sorted into the same sequence. -/
theorem sortKeys_congr (l l' : List Bytes) (h : l.Perm l') : sortKeys l = sortKeys l' := by
  have hanti : IsAntisymm Bytes (fun a b => strLt b a = false) :=
    ⟨fun a b h h' => strLt_connex a b h' h⟩
  exact @List.eq_of_perm_of_sorted _ (fun a b => strLt b a = false) hanti _ _
    (((sortKeys_perm l).trans h).trans (sortKeys_perm l').symm)
    (sortKeys_sorted l) (sortKeys_sorted l')

end Url
/-! ## net/url: what an escaped text can hold -/

namespace Url

theorem upperhex_getD (i : Nat) : upperhex.getD i 0 ∈ upperhex ∨ upperhex.getD i 0 = 0 := by
  by_cases h : i < 16
  · left
    have : ∀ j, j < 16 → upperhex.getD j 0 ∈ upperhex := by decide
    exact this i h
  · right
    have hl : upperhex.length = 16 := by decide
    rw [List.getD_eq_getElem?_getD, List.getElem?_eq_none (by omega)]
    rfl

/-- A byte that `shouldEscape` selects, other than `'+'`, `'%'` and the
hexadecimal digits, does not occur in an escaped text. -/
theorem not_mem_escape (x : Nat) (mode : Encoding) (hx : shouldEscape x mode = true)
    (h43 : x ≠ 43) (h37 : x ≠ 37) (hhex : x ∉ upperhex) (h0 : x ≠ 0) (s : Bytes) :
    x ∉ escape s mode := by
  intro hmem
  unfold escape at hmem
  obtain ⟨c, -, hc⟩ := List.mem_flatMap.mp hmem
  split_ifs at hc with h1 h2
  · simp at hc; exact h43 hc
  · simp only [List.mem_cons, List.mem_singleton, List.not_mem_nil, or_false] at hc
    rcases hc with hc | hc | hc
    · exact h37 hc
    · rcases upperhex_getD (c >>> 4) with h | h
      · exact hhex (hc ▸ h)
      · exact h0 (hc.trans h)
    · rcases upperhex_getD (c &&& 15) with h | h
      · exact hhex (hc ▸ h)
      · exact h0 (hc.trans h)
  · simp only [List.mem_singleton] at hc
    subst hc
    rw [hx] at h2
    exact h2 rfl

theorem amp_not_mem_QueryEscape (s : Bytes) : (38 : Nat) ∉ QueryEscape s :=
  not_mem_escape 38 _ (by decide) (by decide) (by decide) (by decide) (by decide) s

theorem eq_not_mem_QueryEscape (s : Bytes) : (61 : Nat) ∉ QueryEscape s :=
  not_mem_escape 61 _ (by decide) (by decide) (by decide) (by decide) (by decide) s

theorem question_not_mem_escape (s : Bytes) (mode : Encoding) : (63 : Nat) ∉ escape s mode :=
  not_mem_escape 63 mode (by cases mode <;> decide) (by decide) (by decide) (by decide)
    (by decide) s

/-- A text whose escaped form holds neither `'%'` nor `'+'` is its own
escaped form. -/
theorem escape_eq_self (mode : Encoding) : ∀ s t : Bytes, escape s mode = t →
    (37 : Nat) ∉ t → (43 : Nat) ∉ t → s = t
  | [], t, h, _, _ => by simpa [escape] using h
  | c :: s, t, h, h37, h43 => by
    rw [escape_cons] at h
    split_ifs at h with h1 h2
    · exact absurd (h ▸ (by simp) : (43 : Nat) ∈ t) h43
    · exact absurd (h ▸ (by simp) : (37 : Nat) ∈ t) h37
    · match t, h, h37, h43 with
      | [], h, _, _ => simp at h
      | d :: t, h, h37, h43 =>
        simp only [List.singleton_append, List.cons.injEq] at h
        have := escape_eq_self mode s t h.2 (fun hm => h37 (by simp [hm]))
          (fun hm => h43 (by simp [hm]))
        rw [h.1, this]

/-! ## net/url: the text of a URL -/

/-- The query follows the first `?` of the text of the URL. -/
theorem URL.String_query (u : URL) (hq : u.RawQuery ≠ []) :
    u.String = (URL.mk u.Scheme u.Host u.Path []).String ++ [63] ++ u.RawQuery := by
  simp [URL.String, URL.EscapedPath, hq]

theorem not_mem_ite (x : Nat) (c : Prop) [Decidable c] (a b : Bytes) (ha : x ∉ a) (hb : x ∉ b) :
    x ∉ (if c then a else b) := by
  split_ifs
  · exact ha
  · exact hb

theorem not_mem_append (x : Nat) (a b : Bytes) (ha : x ∉ a) (hb : x ∉ b) : x ∉ a ++ b := by
  intro h
  rcases List.mem_append.mp h with h | h
  · exact ha h
  · exact hb h

/-- In front of the query the text of an `otpauth` URL holds no `?`. -/
theorem URL.String_head (host path : Bytes) :
    (63 : Nat) ∉ (URL.mk otpAuthSheme host path []).String := by
  have h1 : (63 : Nat) ∉ otpAuthSheme := by decide
  have h2 : (63 : Nat) ∉ ascii "//" := by decide
  have h2b : (63 : Nat) ∉ ascii "./" := by decide
  have h3 : (63 : Nat) ∉ [58] := by decide
  have h3b : (63 : Nat) ∉ [47] := by decide
  have h4 := question_not_mem_escape host .encodeHost
  have h6 : (63 : Nat) ∉ (URL.mk otpAuthSheme host path []).EscapedPath := by
    unfold URL.EscapedPath
    split_ifs
    · decide
    · exact question_not_mem_escape path .encodePath
  unfold URL.String
  lift_lets
  intro b0 b1 b1s b2 p b3 b4 b5 b6
  have p0 : (63 : Nat) ∉ b0 := by simp [b0]
  have p1 : (63 : Nat) ∉ b1 :=
    not_mem_ite _ _ _ _ (not_mem_append _ _ _ (not_mem_append _ _ _ p0 h1) h3) p0
  have p1s : (63 : Nat) ∉ b1s := not_mem_ite _ _ _ _ (not_mem_append _ _ _ p1 h2) p1
  have p2 : (63 : Nat) ∉ b2 :=
    not_mem_ite _ _ _ _ (not_mem_ite _ _ _ _ (not_mem_append _ _ _ p1s h4) p1s) p1
  have p3 : (63 : Nat) ∉ b3 := not_mem_ite _ _ _ _ (not_mem_append _ _ _ p2 h3b) p2
  have p4 : (63 : Nat) ∉ b4 :=
    not_mem_ite _ _ _ _ (not_mem_ite _ _ _ _ (not_mem_append _ _ _ p3 h2b) p3) p3
  have p5 : (63 : Nat) ∉ b5 := not_mem_append _ _ _ p4 h6
  have hq : ¬ (URL.mk otpAuthSheme host path []).RawQuery ≠ [] := by simp
  show (63 : Nat) ∉ (if _ then _ else b5)
  rw [if_neg hq]
  exact p5

end Url
/-! ## net/url: the encoded query -/

namespace Url

theorem Values.Encode_eq (v : Values) : Values.Encode v = List.intercalate [38] (Values.pairs v) :=
  rfl

/-- The pairs written by `Encode`: one for every value of every key. -/
theorem Values.mem_pairs (v : Values) (p : Bytes) :
    p ∈ Values.pairs v ↔ ∃ k ∈ Values.keys v, ∃ x ∈ Values.lookup v k,
      p = QueryEscape k ++ [61] ++ QueryEscape x := by
  unfold Values.pairs Values.keys
  simp only [List.mem_flatMap, mem_sortKeys]
  constructor
  · rintro ⟨k, hk, hp⟩
    obtain ⟨x, hx, rfl⟩ := List.mem_map.mp hp
    exact ⟨k, hk, x, hx, rfl⟩
  · rintro ⟨k, hk, x, hx, rfl⟩
    exact ⟨k, hk, List.mem_map.mpr ⟨x, hx, rfl⟩⟩

/-- No pair holds the separator `&`. -/
theorem Values.amp_not_mem_pairs (v : Values) : ∀ p ∈ Values.pairs v, (38 : Nat) ∉ p := by
  intro p hp
  obtain ⟨k, -, x, -, rfl⟩ := (Values.mem_pairs v p).mp hp
  exact not_mem_append _ _ _
    (not_mem_append _ _ _ (amp_not_mem_QueryEscape k) (by decide)) (amp_not_mem_QueryEscape x)

theorem mem_intercalate (sep : Bytes) (x : Nat) : ∀ (ps : List Bytes) (p : Bytes),
    p ∈ ps → x ∈ p → x ∈ List.intercalate sep ps := by
  intro ps p hp hx
  unfold List.intercalate
  rw [List.mem_flatten]
  refine ⟨p, ?_, hx⟩
  induction ps with
  | nil => simp at hp
  | cons q ps ih =>
    cases ps with
    | nil => simpa using hp
    | cons r rest =>
      rw [List.intersperse_cons₂]
      rcases List.mem_cons.mp hp with h | h
      · simp [h]
      · simp [ih h]

theorem Values.Encode_ne_nil (v : Values) (p : Bytes) (hp : p ∈ Values.pairs v) :
    Values.Encode v ≠ [] := by
  obtain ⟨k, -, x, -, rfl⟩ := (Values.mem_pairs v p).mp hp
  have := mem_intercalate [38] 61 (Values.pairs v) _ hp (by simp)
  rw [Values.Encode_eq]
  intro h
  rw [h] at this
  simp at this

theorem Values.lookup_of_mem : ∀ (v : Values) (k : Bytes) (vs : List Bytes),
    (Values.keys v).Nodup → (k, vs) ∈ v → Values.lookup v k = vs
  | [], _, _, _, h => by simp at h
  | e :: v, k, vs, hnd, h => by
    simp only [Values.keys, List.map_cons, List.nodup_cons] at hnd
    rw [Values.lookup_cons]
    rcases List.mem_cons.mp h with h | h
    · rw [← h]; simp
    · have hne : e.1 ≠ k := by
        intro he
        exact hnd.1 (List.mem_map.mpr ⟨(k, vs), h, he.symm⟩)
      rw [if_neg hne]
      exact Values.lookup_of_mem v k vs hnd.2 h

theorem Values.exists_of_mem_keys (v : Values) (k : Bytes) (h : k ∈ Values.keys v) :
    ∃ vs, (k, vs) ∈ v := by
  obtain ⟨e, he, rfl⟩ := List.mem_map.mp h
  exact ⟨e.2, he⟩

/-- The values under a key do not depend on the order of a map's entries. -/
theorem Values.lookup_perm (v v' : Values) (k : Bytes) (hnd : (Values.keys v).Nodup)
    (hp : v.Perm v') : Values.lookup v k = Values.lookup v' k := by
  have hk : (Values.keys v).Perm (Values.keys v') := hp.map _
  have hnd' : (Values.keys v').Nodup := hk.nodup_iff.mp hnd
  by_cases h : k ∈ Values.keys v
  · obtain ⟨vs, hvs⟩ := Values.exists_of_mem_keys v k h
    rw [Values.lookup_of_mem v k vs hnd hvs,
      Values.lookup_of_mem v' k vs hnd' (hp.mem_iff.mp hvs)]
  · rw [Values.lookup_of_not_mem v k h,
      Values.lookup_of_not_mem v' k (fun h' => h (hk.mem_iff.mpr h'))]

theorem Values.perm_Add (v v' : Values) (k x : Bytes) (hp : v.Perm v') :
    (Values.Add v k x).Perm (Values.Add v' k x) := by
  have hany : v.any (fun e => decide (e.1 = k)) = v'.any (fun e => decide (e.1 = k)) := by
    rw [Bool.eq_iff_iff]
    simp only [List.any_eq_true]
    constructor
    · rintro ⟨e, he, h⟩; exact ⟨e, hp.mem_iff.mp he, h⟩
    · rintro ⟨e, he, h⟩; exact ⟨e, hp.mem_iff.mpr he, h⟩
  unfold Values.Add
  rw [hany]
  split_ifs
  · exact hp.map _
  · exact hp.append_right _

/-- The encoded query does not depend on the order of a map's entries. -/
theorem Values.Encode_perm (v v' : Values) (hnd : (Values.keys v).Nodup) (hp : v.Perm v') :
    Values.Encode v = Values.Encode v' := by
  have hk : (Values.keys v).Perm (Values.keys v') := hp.map _
  have hs : sortKeys (v.map (fun e => e.1)) = sortKeys (v'.map (fun e => e.1)) :=
    sortKeys_congr _ _ hk
  unfold Values.Encode
  simp only [hs]
  congr 1
  apply List.flatMap_congr
  intro k _
  rw [Values.lookup_perm v v' k hnd hp]

end Url

/-! ## generateProvisioningUrl: the map after the call and the query -/

/-- The map that `generateProvisioningUrl` leaves behind and the shape of the
URI it returns: text without `?`, then `?`, then the pairs joined by `&`. -/
theorem generateProvisioningUrl_some (otpType accountName issuer : Bytes) (digits : Int)
    (key : Bytes) (extra : Url.Values) :
    ∃ final head,
      final = (if digits ≠ defaultDigits then
          Url.Values.Add (Url.Values.Add (Url.Values.Add extra secretKey (encodeKey key))
            issuerKey issuer) digitsKey (sprintfD digits)
        else Url.Values.Add (Url.Values.Add extra secretKey (encodeKey key)) issuerKey issuer) ∧
      (63 : Nat) ∉ head ∧
      generateProvisioningUrl otpType accountName issuer digits key (some extra) =
        some (head ++ [63] ++ List.intercalate [38] (Url.Values.pairs final), final) := by
  refine ⟨_, _, rfl, Url.URL.String_head otpType
    (Url.PathEscape issuer ++ ascii ":" ++ Url.PathEscape accountName), ?_⟩
  generalize hf : (if digits ≠ defaultDigits then
      Url.Values.Add (Url.Values.Add (Url.Values.Add extra secretKey (encodeKey key))
        issuerKey issuer) digitsKey (sprintfD digits)
    else Url.Values.Add (Url.Values.Add extra secretKey (encodeKey key)) issuerKey issuer) = final
  have hgen : generateProvisioningUrl otpType accountName issuer digits key (some extra) =
      some ((Url.URL.mk otpAuthSheme otpType
        (Url.PathEscape issuer ++ ascii ":" ++ Url.PathEscape accountName)
        (Url.Values.Encode final)).String, final) := by
    rw [← hf]; rfl
  have hkey : issuerKey ∈ Url.Values.keys final := by
    rw [← hf]
    split_ifs
    · rw [Url.Values.mem_keys_Add, Url.Values.mem_keys_Add]; exact Or.inl (Or.inr rfl)
    · rw [Url.Values.mem_keys_Add]; exact Or.inr rfl
  have hval : issuer ∈ Url.Values.lookup final issuerKey := by
    rw [← hf]
    have hne : issuerKey ≠ digitsKey := by decide
    split_ifs
    · rw [Url.Values.lookup_Add, if_neg hne, Url.Values.lookup_Add, if_pos rfl]; simp
    · rw [Url.Values.lookup_Add, if_pos rfl]; simp
  have hpair : Url.QueryEscape issuerKey ++ [61] ++ Url.QueryEscape issuer ∈ Url.Values.pairs final :=
    (Url.Values.mem_pairs final _).mpr ⟨issuerKey, hkey, issuer, hval, rfl⟩
  have hne := Url.Values.Encode_ne_nil final _ hpair
  rw [hgen, Url.URL.String_query _ hne, Url.Values.Encode_eq]

/-- The values under every key after the three calls of `Add`. -/
theorem final_lookup (issuer : Bytes) (digits : Int) (key : Bytes) (extra : Url.Values)
    (k : Bytes) :
    Url.Values.lookup (if digits ≠ defaultDigits then
          Url.Values.Add (Url.Values.Add (Url.Values.Add extra secretKey (encodeKey key))
            issuerKey issuer) digitsKey (sprintfD digits)
        else Url.Values.Add (Url.Values.Add extra secretKey (encodeKey key)) issuerKey issuer) k =
      Url.Values.lookup extra k ++ (if k = secretKey then [encodeKey key] else []) ++
        (if k = issuerKey then [issuer] else []) ++
        (if k = digitsKey ∧ digits ≠ defaultDigits then [sprintfD digits] else []) := by
  have h1 : secretKey ≠ issuerKey := by decide
  have h2 : secretKey ≠ digitsKey := by decide
  have h3 : issuerKey ≠ digitsKey := by decide
  by_cases hd : digits ≠ defaultDigits
  · rw [if_pos hd]
    simp only [Url.Values.lookup_Add]
    by_cases k1 : k = secretKey
    · subst k1; simp [h1, h2, hd]
    · by_cases k2 : k = issuerKey
      · subst k2; simp [h1.symm, h3, hd]
      · by_cases k3 : k = digitsKey
        · subst k3; simp [h2.symm, h3.symm, hd]
        · simp [k1, k2, k3]
  · rw [if_neg hd]
    simp only [Url.Values.lookup_Add]
    by_cases k1 : k = secretKey
    · subst k1; simp [h1, hd]
    · by_cases k2 : k = issuerKey
      · subst k2; simp [h1.symm, hd]
      · simp [k1, k2, hd]

/-- The keys after the three calls of `Add`. -/
theorem final_keys (issuer : Bytes) (digits : Int) (key : Bytes) (extra : Url.Values)
    (k : Bytes) :
    k ∈ Url.Values.keys (if digits ≠ defaultDigits then
          Url.Values.Add (Url.Values.Add (Url.Values.Add extra secretKey (encodeKey key))
            issuerKey issuer) digitsKey (sprintfD digits)
        else Url.Values.Add (Url.Values.Add extra secretKey (encodeKey key)) issuerKey issuer) ↔
      k ∈ Url.Values.keys extra ∨ k = secretKey ∨ k = issuerKey ∨
        (k = digitsKey ∧ digits ≠ defaultDigits) := by
  by_cases hd : digits ≠ defaultDigits
  · rw [if_pos hd]
    simp only [Url.Values.mem_keys_Add]
    constructor
    · rintro (((h | h) | h) | h)
      · exact Or.inl h
      · exact Or.inr (Or.inl h)
      · exact Or.inr (Or.inr (Or.inl h))
      · exact Or.inr (Or.inr (Or.inr ⟨h, hd⟩))
    · rintro (h | h | h | ⟨h, -⟩)
      · exact Or.inl (Or.inl (Or.inl h))
      · exact Or.inl (Or.inl (Or.inr h))
      · exact Or.inl (Or.inr h)
      · exact Or.inr h
  · rw [if_neg hd]
    simp only [Url.Values.mem_keys_Add]
    constructor
    · rintro ((h | h) | h)
      · exact Or.inl h
      · exact Or.inr (Or.inl h)
      · exact Or.inr (Or.inr (Or.inl h))
    · rintro (h | h | h | ⟨-, h⟩)
      · exact Or.inl (Or.inl h)
      · exact Or.inl (Or.inr h)
      · exact Or.inr h
      · exact absurd h hd
/-! ## generateProvisioningUrl: the parameters of the query -/

/-- A pair that starts with `digits=` is a pair of the key `digits`. -/
theorem digits_pair_key (k y : Bytes)
    (h : (Url.QueryEscape k ++ [61] ++ y).take 7 = ascii "digits=") : k = digitsKey := by
  have hd : ascii "digits=" = [100, 105, 103, 105, 116, 115, 61] := by decide
  have h61 := Url.eq_not_mem_QueryEscape k
  have hself : ∀ t : Bytes, Url.QueryEscape k = t → (37 : Nat) ∉ t → (43 : Nat) ∉ t → k = t :=
    Url.escape_eq_self _ k
  rw [hd] at h
  generalize Url.QueryEscape k = a at h h61 hself
  match a, h, h61, hself with
  | [], h, _, _ => simp at h
  | [_], h, _, _ => simp at h
  | [_, _], h, _, _ => simp at h
  | [_, _, _], h, _, _ => simp at h
  | [_, _, _, _], h, _, _ => simp at h
  | [_, _, _, _, _], h, _, _ => simp at h
  | [a0, a1, a2, a3, a4, a5], h, _, hself =>
    simp only [List.cons_append, List.nil_append, List.take, List.cons.injEq, and_true] at h
    obtain ⟨rfl, rfl, rfl, rfl, rfl, rfl⟩ := h
    exact (hself _ rfl (by decide) (by decide)).trans (by decide)
  | _ :: _ :: _ :: _ :: _ :: _ :: a6 :: _, h, h61, _ =>
    simp only [List.cons_append, List.take, List.cons.injEq, and_true] at h
    exact absurd (by simp [h.2.2.2.2.2.2] : (61 : Nat) ∈ _) h61

/-- The decimal text of a number is its own query-escaped form. -/
theorem QueryEscape_sprintfD (n : Int) : Url.QueryEscape (sprintfD n) = sprintfD n := by
  apply Url.escape_plain
  intro c hc
  have hdig := fmtDigits_digits n.natAbs n.natAbs [] (le_refl _) (by simp)
  unfold sprintfD at hc
  split_ifs at hc
  · rcases List.mem_cons.mp hc with h | h
    · exact Or.inr (Or.inr (Or.inr h))
    · have := hdig c h; omega
  · have := hdig c hc; omega

/-- C13. For every key, issuer and extra parameters, the query string of the
URI returned by `generateProvisioningUrl` holds the pair
`secret=<encodeKey(key)>` verbatim, the pair `issuer=<issuer>` query-escaped,
and the pair of every caller-supplied extra parameter. -/
theorem generateProvisioningUrl_pairs (otpType accountName issuer : Bytes) (digits : Int)
    (key : Bytes) (extra : Url.Values) (hnd : (Url.Values.keys extra).Nodup) :
    ∃ uri final head pairs,
      generateProvisioningUrl otpType accountName issuer digits key (some extra) =
        some (uri, final) ∧
      uri = head ++ [63] ++ List.intercalate [38] pairs ∧ (63 : Nat) ∉ head ∧
      (∀ p ∈ pairs, (38 : Nat) ∉ p) ∧
      ascii "secret=" ++ encodeKey key ∈ pairs ∧
      ascii "issuer=" ++ Url.QueryEscape issuer ∈ pairs ∧
      ∀ k vs, (k, vs) ∈ extra → ∀ x ∈ vs,
        Url.QueryEscape k ++ [61] ++ Url.QueryEscape x ∈ pairs := by
  obtain ⟨final, head, hf, hhead, hgen⟩ :=
    generateProvisioningUrl_some otpType accountName issuer digits key extra
  have hl := fun k => final_lookup issuer digits key extra k
  have hk := fun k => final_keys issuer digits key extra k
  rw [← hf] at hl hk
  refine ⟨_, final, head, Url.Values.pairs final, hgen, rfl, hhead,
    Url.Values.amp_not_mem_pairs final, ?_, ?_, ?_⟩
  · have hs : ascii "secret=" ++ encodeKey key =
        Url.QueryEscape secretKey ++ [61] ++ Url.QueryEscape (encodeKey key) := by
      rw [QueryEscape_encodeKey]
      have : Url.QueryEscape secretKey ++ [61] = ascii "secret=" := by decide
      rw [this]
    rw [hs, Url.Values.mem_pairs]
    refine ⟨secretKey, (hk _).mpr (Or.inr (Or.inl rfl)), _, ?_, rfl⟩
    rw [hl]
    simp
  · have hs : ascii "issuer=" ++ Url.QueryEscape issuer =
        Url.QueryEscape issuerKey ++ [61] ++ Url.QueryEscape issuer := by
      have : Url.QueryEscape issuerKey ++ [61] = ascii "issuer=" := by decide
      rw [this]
    rw [hs, Url.Values.mem_pairs]
    refine ⟨issuerKey, (hk _).mpr (Or.inr (Or.inr (Or.inl rfl))), _, ?_, rfl⟩
    rw [hl]
    simp
  · intro k vs hmem x hx
    rw [Url.Values.mem_pairs]
    refine ⟨k, (hk _).mpr (Or.inl (List.mem_map.mpr ⟨(k, vs), hmem, rfl⟩)), x, ?_, rfl⟩
    rw [hl, Url.Values.lookup_of_mem extra k vs hnd hmem]
    simp [hx]

theorem generateProvisioningUrl_pairs_witness :
    (Url.Values.keys [(periodKey, [ascii "30"])]).Nodup ∧
    ∃ uri final head pairs,
      generateProvisioningUrl typeTotp (ascii "alice") (ascii "A B") 6
          (ascii "12345678901234567890") (some [(periodKey, [ascii "30"])]) =
        some (uri, final) ∧
      uri = head ++ [63] ++ List.intercalate [38] pairs ∧ (63 : Nat) ∉ head ∧
      (∀ p ∈ pairs, (38 : Nat) ∉ p) ∧
      ascii "secret=" ++ encodeKey (ascii "12345678901234567890") ∈ pairs ∧
      ascii "issuer=" ++ Url.QueryEscape (ascii "A B") ∈ pairs ∧
      ∀ k vs, (k, vs) ∈ [(periodKey, [ascii "30"])] → ∀ x ∈ vs,
        Url.QueryEscape k ++ [61] ++ Url.QueryEscape x ∈ pairs :=
  ⟨by decide, generateProvisioningUrl_pairs typeTotp (ascii "alice") (ascii "A B") 6
    (ascii "12345678901234567890") [(periodKey, [ascii "30"])] (by decide)⟩
/-- C12. For every call of `generateProvisioningUrl` whose extra parameters
do not already hold the key `digits`, the query string of the result holds a
parameter `digits=...` if and only if `digits != 6`, and then it is
`digits=<decimal digits>`; with `digits = 6` no digits parameter appears. -/
theorem generateProvisioningUrl_digits (otpType accountName issuer : Bytes) (digits : Int)
    (key : Bytes) (extra : Url.Values) (hno : digitsKey ∉ Url.Values.keys extra) :
    ∃ uri final head pairs,
      generateProvisioningUrl otpType accountName issuer digits key (some extra) =
        some (uri, final) ∧
      uri = head ++ [63] ++ List.intercalate [38] pairs ∧ (63 : Nat) ∉ head ∧
      (∀ p ∈ pairs, (38 : Nat) ∉ p) ∧
      ((∃ p ∈ pairs, p.take 7 = ascii "digits=") ↔ digits ≠ 6) ∧
      (digits ≠ 6 → ascii "digits=" ++ sprintfD digits ∈ pairs) ∧
      (∀ p ∈ pairs, p.take 7 = ascii "digits=" → p = ascii "digits=" ++ sprintfD digits) ∧
      (digits = 6 → ∀ p ∈ pairs, p.take 7 ≠ ascii "digits=") := by
  obtain ⟨final, head, hf, hhead, hgen⟩ :=
    generateProvisioningUrl_some otpType accountName issuer digits key extra
  have hl := fun k => final_lookup issuer digits key extra k
  have hk := fun k => final_keys issuer digits key extra k
  rw [← hf] at hl hk
  have hdk : Url.QueryEscape digitsKey ++ [61] = ascii "digits=" := by decide
  have h1 : digitsKey ≠ secretKey := by decide
  have h2 : digitsKey ≠ issuerKey := by decide
  -- every pair that starts with `digits=` is the one that the call added
  have honly : ∀ p ∈ Url.Values.pairs final, p.take 7 = ascii "digits=" →
      digits ≠ 6 ∧ p = ascii "digits=" ++ sprintfD digits := by
    intro p hp htake
    obtain ⟨k, hkm, x, hx, rfl⟩ := (Url.Values.mem_pairs final p).mp hp
    have hkd : k = digitsKey := digits_pair_key k _ htake
    subst hkd
    rw [hl, Url.Values.lookup_of_not_mem extra digitsKey hno] at hx
    simp only [h1, h2, if_false, List.append_nil, List.nil_append] at hx
    by_cases hd : digits ≠ defaultDigits
    · rw [if_pos ⟨trivial, hd⟩, List.mem_singleton] at hx
      subst hx
      exact ⟨hd, by rw [QueryEscape_sprintfD, hdk]⟩
    · rw [if_neg (fun h => hd h.2)] at hx
      simp at hx
  have hadd : digits ≠ 6 → ascii "digits=" ++ sprintfD digits ∈ Url.Values.pairs final := by
    intro hd
    have hd' : digits ≠ defaultDigits := hd
    rw [Url.Values.mem_pairs]
    refine ⟨digitsKey, (hk _).mpr (Or.inr (Or.inr (Or.inr ⟨rfl, hd'⟩))), sprintfD digits, ?_, ?_⟩
    · rw [hl]; simp [hd']
    · rw [QueryEscape_sprintfD, hdk]
  refine ⟨_, final, head, Url.Values.pairs final, hgen, rfl, hhead,
    Url.Values.amp_not_mem_pairs final, ⟨?_, ?_⟩, hadd, fun p hp ht => (honly p hp ht).2, ?_⟩
  · rintro ⟨p, hp, ht⟩
    exact (honly p hp ht).1
  · intro hd
    refine ⟨_, hadd hd, ?_⟩
    have hlen : (ascii "digits=").length = 7 := by decide
    rw [← hlen, List.take_left]
  · intro hd p hp ht
    exact (honly p hp ht).1 hd

theorem generateProvisioningUrl_digits_witness :
    digitsKey ∉ Url.Values.keys [(periodKey, [ascii "30"])] ∧
    (generateProvisioningUrl typeTotp (ascii "alice") (ascii "Ex") 8 (ascii "12345")
        (some [(periodKey, [ascii "30"])])).map Prod.fst =
      some (ascii "otpauth://totp/Ex:alice?digits=8&issuer=Ex&period=30&secret=64P36D1L") ∧
    (generateProvisioningUrl typeTotp (ascii "alice") (ascii "Ex") 6 (ascii "12345")
        (some [(periodKey, [ascii "30"])])).map Prod.fst =
      some (ascii "otpauth://totp/Ex:alice?issuer=Ex&period=30&secret=64P36D1L") ∧
    ∃ uri final head pairs,
      generateProvisioningUrl typeTotp (ascii "alice") (ascii "Ex") 8 (ascii "12345")
          (some [(periodKey, [ascii "30"])]) = some (uri, final) ∧
      uri = head ++ [63] ++ List.intercalate [38] pairs ∧ (63 : Nat) ∉ head ∧
      (∀ p ∈ pairs, (38 : Nat) ∉ p) ∧
      ((∃ p ∈ pairs, p.take 7 = ascii "digits=") ↔ (8 : Int) ≠ 6) ∧
      ((8 : Int) ≠ 6 → ascii "digits=" ++ sprintfD 8 ∈ pairs) ∧
      (∀ p ∈ pairs, p.take 7 = ascii "digits=" → p = ascii "digits=" ++ sprintfD 8) ∧
      ((8 : Int) = 6 → ∀ p ∈ pairs, p.take 7 ≠ ascii "digits=") :=
  ⟨by decide, by decide, by decide,
    generateProvisioningUrl_digits typeTotp (ascii "alice") (ascii "Ex") 8 (ascii "12345")
      [(periodKey, [ascii "30"])] (by decide)⟩

/-- C14, as amended.  The function `generateProvisioningUrl` changes the
caller-supplied extra collection: after the call it holds, under `secret`,
`issuer` and (when `digits != 6`) `digits`, the value that the call added
behind the values it held before, and under every other key exactly the same
values as before. -/
theorem generateProvisioningUrl_extra (otpType accountName issuer : Bytes) (digits : Int)
    (key : Bytes) (extra : Url.Values) :
    ∃ uri final,
      generateProvisioningUrl otpType accountName issuer digits key (some extra) =
        some (uri, final) ∧
      (∀ k, k ≠ secretKey → k ≠ issuerKey → k ≠ digitsKey →
        Url.Values.lookup final k = Url.Values.lookup extra k) ∧
      Url.Values.lookup final secretKey = Url.Values.lookup extra secretKey ++ [encodeKey key] ∧
      Url.Values.lookup final issuerKey = Url.Values.lookup extra issuerKey ++ [issuer] ∧
      Url.Values.lookup final digitsKey =
        Url.Values.lookup extra digitsKey ++ (if digits ≠ 6 then [sprintfD digits] else []) ∧
      (∀ k, k ∈ Url.Values.keys final ↔ k ∈ Url.Values.keys extra ∨ k = secretKey ∨
        k = issuerKey ∨ (k = digitsKey ∧ digits ≠ 6)) ∧
      final ≠ extra := by
  obtain ⟨final, head, hf, -, hgen⟩ :=
    generateProvisioningUrl_some otpType accountName issuer digits key extra
  have hl := fun k => final_lookup issuer digits key extra k
  have hk := fun k => final_keys issuer digits key extra k
  rw [← hf] at hl hk
  have h1 : secretKey ≠ issuerKey := by decide
  have h2 : secretKey ≠ digitsKey := by decide
  have h3 : issuerKey ≠ digitsKey := by decide
  have hs : Url.Values.lookup final secretKey =
      Url.Values.lookup extra secretKey ++ [encodeKey key] := by
    rw [hl]; simp [h1, h2]
  refine ⟨_, final, hgen, ?_, hs, ?_, ?_, hk, ?_⟩
  · intro k k1 k2 k3
    rw [hl]; simp [k1, k2, k3]
  · rw [hl]; simp [h1.symm, h3]
  · rw [hl]
    by_cases hd : digits ≠ defaultDigits
    · have hd6 : digits ≠ 6 := hd
      simp [h2.symm, h3.symm, hd, hd6]
    · have hd6 : ¬ digits ≠ 6 := hd
      simp [h2.symm, h3.symm, hd, hd6]
  · intro heq
    rw [heq] at hs
    have := congrArg List.length hs
    simp at this

/-- C14 fails as stated.  After a call with the extra parameters
`{period: "30"}` the collection also holds the keys `secret` and `issuer`. -/
theorem generateProvisioningUrl_extra_counterexample :
    (generateProvisioningUrl typeTotp (ascii "alice") (ascii "Ex") 6 (ascii "12345")
        (some [(periodKey, [ascii "30"])])).map Prod.snd =
      some [(periodKey, [ascii "30"]), (secretKey, [ascii "64P36D1L"]), (issuerKey, [ascii "Ex"])] ∧
    (generateProvisioningUrl typeTotp (ascii "alice") (ascii "Ex") 6 (ascii "12345")
        (some [(periodKey, [ascii "30"])])).map Prod.snd ≠ some [(periodKey, [ascii "30"])] := by
  refine ⟨by decide, by decide⟩
/-- C17. The query string produced by `generateProvisioningUrl` is stable:
its parameters appear in strictly ascending bytewise order of key, and two
extra collections that hold the same keys with the same values, supplied in
any order, give the identical URI string. -/
theorem generateProvisioningUrl_stable (otpType accountName issuer : Bytes) (digits : Int)
    (key : Bytes) (extra extra' : Url.Values) (hnd : (Url.Values.keys extra).Nodup)
    (hp : extra.Perm extra') :
    (generateProvisioningUrl otpType accountName issuer digits key (some extra)).map Prod.fst =
      (generateProvisioningUrl otpType accountName issuer digits key (some extra')).map Prod.fst ∧
    ∃ (uri : Bytes) (final : Url.Values) (head : Bytes) (keys : List Bytes),
      generateProvisioningUrl otpType accountName issuer digits key (some extra) =
        some (uri, final) ∧
      uri = head ++ [63] ++ List.intercalate [38] (keys.flatMap (fun k =>
        (Url.Values.lookup final k).map
          (fun value => Url.QueryEscape k ++ [61] ++ Url.QueryEscape value))) ∧
      (63 : Nat) ∉ head ∧
      keys.Pairwise (fun a b => Url.strLt a b = true) ∧
      keys.Perm (Url.Values.keys final) := by
  constructor
  · have hgen : ∀ e : Url.Values,
        (generateProvisioningUrl otpType accountName issuer digits key (some e)).map Prod.fst =
        some (Url.URL.mk otpAuthSheme otpType
          (Url.PathEscape issuer ++ ascii ":" ++ Url.PathEscape accountName)
          (Url.Values.Encode (if digits ≠ defaultDigits then
              Url.Values.Add (Url.Values.Add (Url.Values.Add e secretKey (encodeKey key))
                issuerKey issuer) digitsKey (sprintfD digits)
            else Url.Values.Add (Url.Values.Add e secretKey (encodeKey key))
              issuerKey issuer))).String := fun _ => rfl
    rw [hgen extra, hgen extra']
    have henc : Url.Values.Encode (if digits ≠ defaultDigits then
          Url.Values.Add (Url.Values.Add (Url.Values.Add extra secretKey (encodeKey key))
            issuerKey issuer) digitsKey (sprintfD digits)
        else Url.Values.Add (Url.Values.Add extra secretKey (encodeKey key)) issuerKey issuer) =
        Url.Values.Encode (if digits ≠ defaultDigits then
          Url.Values.Add (Url.Values.Add (Url.Values.Add extra' secretKey (encodeKey key))
            issuerKey issuer) digitsKey (sprintfD digits)
        else Url.Values.Add (Url.Values.Add extra' secretKey (encodeKey key))
          issuerKey issuer) := by
      split_ifs
      · exact Url.Values.Encode_perm _ _
          (Url.Values.nodup_Add _ _ _ (Url.Values.nodup_Add _ _ _ (Url.Values.nodup_Add _ _ _ hnd)))
          (Url.Values.perm_Add _ _ _ _ (Url.Values.perm_Add _ _ _ _
            (Url.Values.perm_Add _ _ _ _ hp)))
      · exact Url.Values.Encode_perm _ _
          (Url.Values.nodup_Add _ _ _ (Url.Values.nodup_Add _ _ _ hnd))
          (Url.Values.perm_Add _ _ _ _ (Url.Values.perm_Add _ _ _ _ hp))
    rw [henc]
  · obtain ⟨final, head, hf, hhead, hgen⟩ :=
      generateProvisioningUrl_some otpType accountName issuer digits key extra
    have hfnd : (Url.Values.keys final).Nodup := by
      rw [hf]
      split_ifs
      · exact Url.Values.nodup_Add _ _ _
          (Url.Values.nodup_Add _ _ _ (Url.Values.nodup_Add _ _ _ hnd))
      · exact Url.Values.nodup_Add _ _ _ (Url.Values.nodup_Add _ _ _ hnd)
    exact ⟨_, final, head, Url.sortKeys (Url.Values.keys final), hgen, rfl, hhead,
      Url.sortKeys_strict _ hfnd, Url.sortKeys_perm _⟩

theorem generateProvisioningUrl_stable_witness :
    (Url.Values.keys [(periodKey, [ascii "30"]), (ascii "algorithm", [ascii "SHA1"])]).Nodup ∧
    List.Perm [(periodKey, [ascii "30"]), (ascii "algorithm", [ascii "SHA1"])]
      [(ascii "algorithm", [ascii "SHA1"]), (periodKey, [ascii "30"])] ∧
    (generateProvisioningUrl typeTotp (ascii "alice") (ascii "Ex") 8 (ascii "12345")
        (some [(periodKey, [ascii "30"]), (ascii "algorithm", [ascii "SHA1"])])).map Prod.fst =
      some (ascii
        "otpauth://totp/Ex:alice?algorithm=SHA1&digits=8&issuer=Ex&period=30&secret=64P36D1L") ∧
    (generateProvisioningUrl typeTotp (ascii "alice") (ascii "Ex") 8 (ascii "12345")
        (some [(ascii "algorithm", [ascii "SHA1"]), (periodKey, [ascii "30"])])).map Prod.fst =
      some (ascii
        "otpauth://totp/Ex:alice?algorithm=SHA1&digits=8&issuer=Ex&period=30&secret=64P36D1L") ∧
    ((generateProvisioningUrl typeTotp (ascii "alice") (ascii "Ex") 8 (ascii "12345")
        (some [(periodKey, [ascii "30"]), (ascii "algorithm", [ascii "SHA1"])])).map Prod.fst =
      (generateProvisioningUrl typeTotp (ascii "alice") (ascii "Ex") 8 (ascii "12345")
        (some [(ascii "algorithm", [ascii "SHA1"]), (periodKey, [ascii "30"])])).map Prod.fst) :=
  ⟨by decide, List.Perm.swap _ _ _, by decide, by decide,
    (generateProvisioningUrl_stable typeTotp (ascii "alice") (ascii "Ex") 8 (ascii "12345")
      [(periodKey, [ascii "30"]), (ascii "algorithm", [ascii "SHA1"])]
      [(ascii "algorithm", [ascii "SHA1"]), (periodKey, [ascii "30"])]
      (by decide) (List.Perm.swap _ _ _)).1⟩

end Gotp
